import Mathlib

/-!
Verification of the two history-mining tools of this repository
(commits.py, the Commit History Reporter, and patchsets.py, the Patchset
Reporter) against their natural-language specification.

The scripts shell out to git.  We embed them shallowly:

* a Python string is modelled as a list of characters (`Str`), with the
  Python primitives used by the scripts (`strip`, `split`, substring
  containment, truthiness) defined as executable Lean functions;
* the git repository is modelled as a list of commits in chronological
  order (index 0 oldest; a parent always has a smaller index than its
  child), and each git invocation made by the scripts is given a
  semantics over that model (`gitExec`);
* `run_command` and the two `main` functions are translated line by line;
  `sys.exit(1)` raised from `run_command` and Python exceptions are
  modelled by the `Exn` error monad, and a whole process run is summed up
  in a `RunResult` (stdout documents, stderr lines, exit code).

Model conventions, documented once here: `git log` default order (newest
first) is decreasing index order; `git rev-parse` resolves a string first
as a commit id and then as a symbolic reference; the raw output of a git
query that prints one item per line is the newline-join of the items.
-/

/-- Characters of a Python string. -/
abbrev Str := List Char

/-- Literal helper turning a Lean string literal into the model type. -/
def chars (s : String) : Str := s.toList

/-- Leading-whitespace removal, the first half of Python str.strip. -/
def stripFront (s : Str) : Str := s.dropWhile Char.isWhitespace

/-- Trailing-whitespace removal, the second half of Python str.strip. -/
def stripBack (s : Str) : Str := (s.reverse.dropWhile Char.isWhitespace).reverse

/-- Python str.strip(): drop whitespace from both ends. -/
def pyStrip (s : Str) : Str := stripBack (stripFront s)

/-- Python str.split(sep) for a one-character separator: adjacent
separators yield empty fields and the empty string splits to one empty
field. -/
def pySplit (sep : Char) : Str → List Str
  | [] => [[]]
  | c :: rest =>
    match pySplit sep rest with
    | [] => [[c]]
    | h :: t => if c = sep then [] :: h :: t else (c :: h) :: t

/-- Join a list of lines with newline characters, the raw text a git
query printing one item per line produces. -/
def joinNl : List Str → Str
  | [] => []
  | [x] => x
  | x :: y :: rest => x ++ '\n' :: joinNl (y :: rest)

/-- Does the second string start with the first one? -/
def leadsWith : Str → Str → Bool
  | [], _ => true
  | _ :: _, [] => false
  | p :: ps, c :: cs => p == c && leadsWith ps cs

/-- Python substring containment, pat in s. -/
def containsSub (pat : Str) : Str → Bool
  | [] => leadsWith pat []
  | c :: cs => leadsWith pat (c :: cs) || containsSub pat cs

/-- One commit of the modelled repository: the raw texts the git
format specifiers %s, %b, %B, %an <%ae> and %ci would print for it, the
paths its diff touches, and the indices of its parents (first parent
first).  Indices are chronological, so every parent index is smaller
than the index of the commit itself. -/
structure CommitData where
  hash : Str
  parents : List Nat
  subject : Str
  body : Str
  messageB : Str
  author : Str
  date : Str
  files : List Str
deriving DecidableEq, Inhabited

/-- Commit at an index, defaulting outside the repository. -/
def dataAt (cs : List CommitData) (i : Nat) : CommitData := (cs[i]?).getD default

/-- Hash of the commit at an index. -/
def hashAt (cs : List CommitData) (i : Nat) : Str := (dataAt cs i).hash

/-- Parent indices of the commit at an index. -/
def parentsAt (cs : List CommitData) (i : Nat) : List Nat := (dataAt cs i).parents

/-- Executable check that from position k on, every commit lists only
parents with strictly smaller absolute index. -/
def parOkFrom : Nat → List CommitData → Bool
  | _, [] => true
  | i, c :: rest => c.parents.all (fun p => decide (p < i)) && parOkFrom (i + 1) rest

/-- Executable check that a hash is a plausible git object id: nonempty
and free of whitespace. -/
def hashOk (c : CommitData) : Bool :=
  !c.hash.isEmpty && c.hash.all (fun ch => !ch.isWhitespace)

/-- Well-formedness of the modelled repository: acyclic chronological
parents, plausible and pairwise distinct hashes. -/
def repoOk (cs : List CommitData) : Bool :=
  parOkFrom 0 cs && cs.all hashOk && decide (cs.map (fun c => c.hash)).Nodup

/-- Fuel-bounded ancestor test: is j an ancestor of (or equal to) i? -/
def reachFuel (cs : List CommitData) : Nat → Nat → Nat → Bool
  | 0, i, j => i == j
  | f + 1, i, j => i == j || (parentsAt cs i).any (fun p => reachFuel cs f p j)

/-- Reachability in the commit graph: j is reachable from i along parent
edges.  Fuel i is enough because parent indices strictly decrease. -/
def reach (cs : List CommitData) (i j : Nat) : Bool := reachFuel cs i i j

/-- Reachability as a relation, for specification-level statements. -/
inductive Reaches (cs : List CommitData) : Nat → Nat → Prop
  | refl (i : Nat) : Reaches cs i i
  | step {i p j : Nat} : p ∈ parentsAt cs i → Reaches cs p j → Reaches cs i j

/-- Is the commit at an index a merge commit (two or more parents)? -/
def isMerge (cs : List CommitData) (i : Nat) : Bool :=
  decide (2 ≤ (parentsAt cs i).length)

/-- Does the commit at an index modify the given path? -/
def touches (cs : List CommitData) (i : Nat) (f : Str) : Bool :=
  (dataAt cs i).files.contains f

/-- Commits of the git range a..b (reachable from b, not from a), in git
log default order: newest first, i.e. decreasing index. -/
def rangeDesc (cs : List CommitData) (a b : Nat) : List Nat :=
  ((List.range cs.length).filter (fun i => reach cs b i && !reach cs a i)).reverse

/-- Enumeration behind git log A^..B --no-merges -- f (commits.py):
non-merge commits of the range sp..b touching f, newest first, where sp
is the first parent of the start commit. -/
def commitsQuery (cs : List CommitData) (sp b : Nat) (f : Str) : List Nat :=
  (rangeDesc cs sp b).filter (fun i => !isMerge cs i && touches cs i f)

/-- Enumeration behind git log --merges a..b: merge commits of the
range, newest first. -/
def mergesQuery (cs : List CommitData) (a b : Nat) : List Nat :=
  (rangeDesc cs a b).filter (fun i => isMerge cs i)

/-- Enumeration behind git log --reverse --no-merges a..b
(get_commits_in_merge): non-merge commits of the range, oldest first,
literally the reverse of the newest-first enumeration. -/
def innerAsc (cs : List CommitData) (a b : Nat) : List Nat :=
  ((rangeDesc cs a b).filter (fun i => !isMerge cs i)).reverse

/-- Enumeration behind git log --oneline a..b -- f
(check_merge_affects_verifier): commits of the range touching f. -/
def affectsQuery (cs : List CommitData) (a b : Nat) (f : Str) : List Nat :=
  (rangeDesc cs a b).filter (fun i => touches cs i f)

/-- Text of one git log --oneline entry for a commit. -/
def onelineOf (cs : List CommitData) (i : Nat) : Str :=
  hashAt cs i ++ ' ' :: (dataAt cs i).subject

/-- Shape of each git invocation the two scripts build (the interpolated
argument strings are carried verbatim). -/
inductive GitCmd where
  | revParse (ref : Str)
  | revParseParent (h : Str) (k : Nat)
  | logFileNoMerges (startRef endRef filePath : Str)
  | logMerges (startRef endRef : Str)
  | showMessageB (h : Str)
  | showNameOnly (h : Str)
  | showAuthor (h : Str)
  | showDate (h : Str)
  | showSubject (h : Str)
  | showBody (h : Str)
  | logReverseNoMerges (p1 p2 : Str)
  | logFileOneline (p1 p2 filePath : Str)
  | logMergesOneline (p1 p2 : Str)
deriving DecidableEq

/-- Decimal rendering of a number, for command-line text. -/
def natChars (n : Nat) : Str := chars (toString n)

/-- Shell text of each command, exactly as the scripts interpolate it
(the single quotes of the original f-strings are reproduced). -/
def cmdText : GitCmd → Str
  | .revParse r => chars "git rev-parse " ++ r
  | .revParseParent h k => chars "git rev-parse " ++ h ++ '^' :: natChars k
  | .logFileNoMerges s e f =>
    chars "git log " ++ s ++ chars "^.." ++ e ++
      chars " --no-merges --pretty=format:'%H' -- " ++ f
  | .logMerges s e =>
    chars "git log --merges " ++ s ++ chars "^.." ++ e ++ chars " --format='%H'"
  | .showMessageB h => chars "git show -s --format=%B " ++ h
  | .showNameOnly h => chars "git show --name-only --format='' " ++ h
  | .showAuthor h => chars "git show -s --format='%an <%ae>' " ++ h
  | .showDate h => chars "git show -s --format='%ci' " ++ h
  | .showSubject h => chars "git show -s --format='%s' " ++ h
  | .showBody h => chars "git show -s --format='%b' " ++ h
  | .logReverseNoMerges p1 p2 =>
    chars "git log --reverse --no-merges --format='%H' " ++ p1 ++ chars ".." ++ p2
  | .logFileOneline p1 p2 f =>
    chars "git log --oneline " ++ p1 ++ chars ".." ++ p2 ++ chars " -- " ++ f
  | .logMergesOneline p1 p2 =>
    chars "git log --merges --oneline " ++ p1 ++ chars ".." ++ p2

/-- State of one invocation of either tool: the repository the current
directory holds, whether its .git directory exists, the symbolic
references git can resolve, and an oracle injecting external failures
(and the stderr text git would print for a failing command). -/
structure Env where
  commits : List CommitData
  refs : List (Str × Nat)
  inRepo : Bool
  failCmd : GitCmd → Bool
  errDetails : GitCmd → Str
  hwf : repoOk commits = true

/-- Resolution of a revision string, first as a commit id, then as a
symbolic reference. -/
def resolve (env : Env) (s : Str) : Option Nat :=
  match (List.range env.commits.length).find? (fun i => hashAt env.commits i == s) with
  | some i => some i
  | none =>
    match List.lookup s env.refs with
    | some i => if i < env.commits.length then some i else none
    | none => none

/-- Raw stdout of each git command over the modelled repository; none
models a nonzero git exit (unresolvable revision, missing parent). -/
def gitExec (env : Env) : GitCmd → Option Str
  | .revParse r =>
    match resolve env r with
    | some i => some (hashAt env.commits i)
    | none => none
  | .revParseParent h k =>
    match resolve env h with
    | some i =>
      match (parentsAt env.commits i)[k - 1]? with
      | some p => some (hashAt env.commits p)
      | none => none
    | none => none
  | .logFileNoMerges s e f =>
    match resolve env s, resolve env e with
    | some si, some ei =>
      match (parentsAt env.commits si)[0]? with
      | some sp => some (joinNl ((commitsQuery env.commits sp ei f).map (hashAt env.commits)))
      | none => none
    | _, _ => none
  | .logMerges s e =>
    match resolve env s, resolve env e with
    | some si, some ei =>
      match (parentsAt env.commits si)[0]? with
      | some sp => some (joinNl ((mergesQuery env.commits sp ei).map (hashAt env.commits)))
      | none => none
    | _, _ => none
  | .showMessageB h => (resolve env h).map (fun i => (dataAt env.commits i).messageB)
  | .showNameOnly h => (resolve env h).map (fun i => joinNl (dataAt env.commits i).files)
  | .showAuthor h => (resolve env h).map (fun i => (dataAt env.commits i).author)
  | .showDate h => (resolve env h).map (fun i => (dataAt env.commits i).date)
  | .showSubject h => (resolve env h).map (fun i => (dataAt env.commits i).subject)
  | .showBody h => (resolve env h).map (fun i => (dataAt env.commits i).body)
  | .logReverseNoMerges p1 p2 =>
    match resolve env p1, resolve env p2 with
    | some a, some b => some (joinNl ((innerAsc env.commits a b).map (hashAt env.commits)))
    | _, _ => none
  | .logFileOneline p1 p2 f =>
    match resolve env p1, resolve env p2 with
    | some a, some b => some (joinNl ((affectsQuery env.commits a b f).map (onelineOf env.commits)))
    | _, _ => none
  | .logMergesOneline p1 p2 =>
    match resolve env p1, resolve env p2 with
    | some a, some b => some (joinNl ((mergesQuery env.commits a b).map (onelineOf env.commits)))
    | _, _ => none

/-- Exceptions of the scripts: SystemExit raised by sys.exit(1) inside
run_command (carrying the stderr lines printed just before), and
subprocess.CalledProcessError, which the reference-validation handler in
each main claims to catch. -/
inductive Exn where
  | systemExit (stderrLines : List Str)
  | calledProcessError
deriving DecidableEq

/-- First stderr line run_command prints on failure. -/
def errLine1 (c : GitCmd) : Str := chars "Error executing command: " ++ cmdText c

/-- Second stderr line run_command prints on failure. -/
def errLine2 (env : Env) (c : GitCmd) : Str := chars "Error details: " ++ env.errDetails c

/-- The run_command helper both scripts define identically: run the
command, return the stripped stdout, and on any failure print two
diagnostic lines and exit the process (SystemExit, never a
CalledProcessError escaping to the caller). -/
def run_command (env : Env) (cmd : GitCmd) : Except Exn Str :=
  if env.failCmd cmd then .error (.systemExit [errLine1 cmd, errLine2 env cmd])
  else
    match gitExec env cmd with
    | some out => .ok (pyStrip out)
    | none => .error (.systemExit [errLine1 cmd, errLine2 env cmd])

/-- Outcome of a whole process run: the documents printed to stdout, the
lines printed to stderr, and the exit status. -/
structure RunResult (ρ : Type) where
  stdout : List ρ
  stderr : List Str
  exitCode : Nat
deriving DecidableEq

namespace Commits

/-- Hard-coded target path of commits.py. -/
def target_file : Str := chars "kernel/bpf/verifier.c"

/-- Record built by get_commit_details in commits.py. -/
structure CommitRecord where
  hash : Str
  author : Str
  date : Str
  message : Str
  modified_files : List Str
deriving DecidableEq, Inhabited

/-- Report printed by commits.py. -/
structure Report where
  target_file : Str
  start_ref : Str
  end_ref : Str
  commit_count : Nat
  commits : List CommitRecord
deriving DecidableEq, Inhabited

/-- get_commits_between_refs of commits.py. -/
def get_commits_between_refs (env : Env) (start_ref end_ref file_path : Str) :
    Except Exn (List Str) := do
  let commits ← run_command env (.logFileNoMerges start_ref end_ref file_path)
  pure (if commits = [] then [] else pySplit '\n' commits)

/-- get_commit_details of commits.py. -/
def get_commit_details (env : Env) (commit_hash : Str) : Except Exn CommitRecord := do
  let message ← run_command env (.showMessageB commit_hash)
  let files ← run_command env (.showNameOnly commit_hash)
  let modified_files := (pySplit '\n' files).filter (fun f => f ≠ [])
  let author ← run_command env (.showAuthor commit_hash)
  let date ← run_command env (.showDate commit_hash)
  pure { hash := commit_hash, author := author, date := date, message := message,
         modified_files := modified_files }

/-- The per-commit for loop of main in commits.py: skip empty lines,
fetch details, append in order. -/
def details_loop (env : Env) : List Str → Except Exn (List CommitRecord)
  | [] => .ok []
  | h :: rest =>
    if h = [] then details_loop env rest
    else do
      let r ← get_commit_details env h
      let rs ← details_loop env rest
      pure (r :: rs)

/-- Progress line main prints to stderr after validating the refs. -/
def progress_line (start_ref end_ref : Str) : Str :=
  chars "Analyzing commits between " ++ start_ref ++ chars " and " ++ end_ref ++
    chars " (inclusive) that modified " ++ target_file

/-- Stderr line of the NotARepository failure. -/
def not_repo_line : Str := chars "Error: Not in a git repository"

/-- Stderr line of the (dead) InvalidReference handler. -/
def bad_refs_line : Str := chars "Error: One or both git references do not exist"

/-- main of commits.py as a function from the environment and the two
positional arguments to the observable outcome of the process. -/
def main (env : Env) (start_ref end_ref : Str) : RunResult Report :=
  if env.inRepo = false then
    ⟨[], [not_repo_line], 1⟩
  else
    match (do
      let _ ← run_command env (.revParse start_ref)
      let _ ← run_command env (.revParse end_ref)
      pure () : Except Exn Unit) with
    | .error .calledProcessError => ⟨[], [bad_refs_line], 1⟩
    | .error (.systemExit ls) => ⟨[], ls, 1⟩
    | .ok () =>
      match (do
        let commits ← get_commits_between_refs env start_ref end_ref target_file
        details_loop env commits : Except Exn (List CommitRecord)) with
      | .error (.systemExit ls) => ⟨[], progress_line start_ref end_ref :: ls, 1⟩
      | .error .calledProcessError =>
        ⟨[], [progress_line start_ref end_ref, chars "Traceback (most recent call last):"], 1⟩
      | .ok recs =>
        ⟨[{ target_file := target_file, start_ref := start_ref, end_ref := end_ref,
            commit_count := recs.length, commits := recs }],
         [progress_line start_ref end_ref], 0⟩

end Commits

namespace Patchsets

/-- Hard-coded target path of patchsets.py. -/
def target_file : Str := chars "kernel/bpf/verifier.c"

/-- Record built by get_commit_details in patchsets.py (subject and body
kept separate). -/
structure CommitRecord where
  hash : Str
  subject : Str
  message : Str
  author : Str
  date : Str
  modified_files : List Str
deriving DecidableEq, Inhabited

/-- Record built by get_merge_details in patchsets.py. -/
structure MergeDetails where
  hash : Str
  subject : Str
  body : Str
  author : Str
  date : Str
  parent1 : Str
  parent2 : Str
deriving DecidableEq, Inhabited

/-- One accepted patchset of the report. -/
structure Patchset where
  merge_hash : Str
  merge_subject : Str
  merge_body : Str
  merge_author : Str
  merge_date : Str
  commits : List CommitRecord
deriving DecidableEq, Inhabited

/-- Report printed by patchsets.py. -/
structure Report where
  target_file : Str
  start_ref : Str
  end_ref : Str
  patchset_count : Nat
  patchsets : List Patchset
deriving DecidableEq, Inhabited

/-- get_merge_commits of patchsets.py. -/
def get_merge_commits (env : Env) (start_ref end_ref : Str) : Except Exn (List Str) := do
  let merges ← run_command env (.logMerges start_ref end_ref)
  pure (if merges = [] then [] else pySplit '\n' merges)

/-- get_merge_details of patchsets.py. -/
def get_merge_details (env : Env) (merge_hash : Str) : Except Exn MergeDetails := do
  let subject ← run_command env (.showSubject merge_hash)
  let body ← run_command env (.showBody merge_hash)
  let parent1 ← run_command env (.revParseParent merge_hash 1)
  let parent2 ← run_command env (.revParseParent merge_hash 2)
  let author ← run_command env (.showAuthor merge_hash)
  let date ← run_command env (.showDate merge_hash)
  pure { hash := merge_hash, subject := subject, body := body, author := author,
         date := date, parent1 := parent1, parent2 := parent2 }

/-- get_commits_in_merge of patchsets.py. -/
def get_commits_in_merge (env : Env) (parent1 parent2 : Str) : Except Exn (List Str) := do
  let commits ← run_command env (.logReverseNoMerges parent1 parent2)
  pure (if commits = [] then [] else pySplit '\n' commits)

/-- get_commit_details of patchsets.py. -/
def get_commit_details (env : Env) (commit_hash : Str) : Except Exn CommitRecord := do
  let subject ← run_command env (.showSubject commit_hash)
  let message ← run_command env (.showBody commit_hash)
  let files ← run_command env (.showNameOnly commit_hash)
  let modified_files := (pySplit '\n' files).filter (fun f => f ≠ [])
  let author ← run_command env (.showAuthor commit_hash)
  let date ← run_command env (.showDate commit_hash)
  pure { hash := commit_hash, subject := subject, message := message, author := author,
         date := date, modified_files := modified_files }

/-- check_merge_affects_verifier of patchsets.py. -/
def check_merge_affects_verifier (env : Env) (parent1 parent2 tf : Str) :
    Except Exn Bool := do
  let result ← run_command env (.logFileOneline parent1 parent2 tf)
  pure (result ≠ [])

/-- check_merge_contains_merges of patchsets.py. -/
def check_merge_contains_merges (env : Env) (parent1 parent2 : Str) :
    Except Exn Bool := do
  let result ← run_command env (.logMergesOneline parent1 parent2)
  pure (result ≠ [])

/-- The per-commit for loop inside the accepted-merge branch of main. -/
def details_loop (env : Env) : List Str → Except Exn (List CommitRecord)
  | [] => .ok []
  | h :: rest =>
    if h = [] then details_loop env rest
    else do
      let r ← get_commit_details env h
      let rs ← details_loop env rest
      pure (r :: rs)

/-- Stderr line announcing an accepted merge. -/
def found_line (merge_hash subject : Str) : Str :=
  chars "Found (" ++ merge_hash ++ chars ")  " ++ subject

/-- The per-merge for loop of main in patchsets.py: skip empty lines,
apply the three exclusion filters in order, and for surviving merges
collect the patchset and the Found stderr line. -/
def process_loop (env : Env) (tf : Str) : List Str → Except Exn (List Patchset × List Str)
  | [] => .ok ([], [])
  | h :: rest =>
    if h = [] then process_loop env tf rest
    else do
      let md ← get_merge_details env h
      let nested ← check_merge_contains_merges env md.parent1 md.parent2
      if nested then process_loop env tf rest
      else if containsSub (chars "Merge tag") md.subject then process_loop env tf rest
      else do
        let affects ← check_merge_affects_verifier env md.parent1 md.parent2 tf
        if affects then do
          let commit_hashes ← get_commits_in_merge env md.parent1 md.parent2
          let commits ← details_loop env commit_hashes
          let ps : Patchset :=
            { merge_hash := h, merge_subject := md.subject, merge_body := md.body,
              merge_author := md.author, merge_date := md.date, commits := commits }
          let (restPs, restLines) ← process_loop env tf rest
          pure (ps :: restPs, found_line h md.subject :: restLines)
        else process_loop env tf rest

/-- Progress line main prints to stderr after validating the refs. -/
def progress_line (start_ref end_ref : Str) : Str :=
  chars "Analyzing merge commits between " ++ start_ref ++ chars " and " ++ end_ref ++
    chars " that affect " ++ target_file

/-- Stderr line of the NotARepository failure. -/
def not_repo_line : Str := chars "Error: Not in a git repository"

/-- Stderr line of the (dead) InvalidReference handler. -/
def bad_refs_line : Str := chars "Error: One or both git references do not exist"

/-- main of patchsets.py as a function from the environment and the two
positional arguments to the observable outcome of the process. -/
def main (env : Env) (start_ref end_ref : Str) : RunResult Report :=
  if env.inRepo = false then
    ⟨[], [not_repo_line], 1⟩
  else
    match (do
      let _ ← run_command env (.revParse start_ref)
      let _ ← run_command env (.revParse end_ref)
      pure () : Except Exn Unit) with
    | .error .calledProcessError => ⟨[], [bad_refs_line], 1⟩
    | .error (.systemExit ls) => ⟨[], ls, 1⟩
    | .ok () =>
      match (do
        let merge_commits ← get_merge_commits env start_ref end_ref
        process_loop env target_file merge_commits :
          Except Exn (List Patchset × List Str)) with
      | .error (.systemExit ls) => ⟨[], progress_line start_ref end_ref :: ls, 1⟩
      | .error .calledProcessError =>
        ⟨[], [progress_line start_ref end_ref, chars "Traceback (most recent call last):"], 1⟩
      | .ok (patchsets, foundLines) =>
        ⟨[{ target_file := target_file, start_ref := start_ref, end_ref := end_ref,
            patchset_count := patchsets.length, patchsets := patchsets }],
         progress_line start_ref end_ref :: foundLines, 0⟩

end Patchsets

/-! Basic facts about the Except monad used by the embedding. -/

@[simp]
theorem exceptBind_ok {α β : Type} (a : α) (f : α → Except Exn β) :
    (Except.ok a >>= f) = f a := rfl

@[simp]
theorem exceptBind_error {α β : Type} (e : Exn) (f : α → Except Exn β) :
    ((Except.error e : Except Exn α) >>= f) = Except.error e := rfl

/-! Facts about the Python string primitives. -/

theorem dropWhile_eq_self_of_head (p : Char → Bool) (s : Str)
    (h : ∀ c, s.head? = some c → p c = false) : s.dropWhile p = s := by
  cases s with
  | nil => rfl
  | cons c t => simp [List.dropWhile_cons, h c rfl]

theorem head_dropWhile_false (p : Char → Bool) (s : Str) (c : Char)
    (h : (s.dropWhile p).head? = some c) : p c = false := by
  induction s with
  | nil => simp at h
  | cons a t ih =>
    by_cases hp : p a
    · rw [List.dropWhile_cons, if_pos hp] at h
      exact ih h
    · rw [List.dropWhile_cons, if_neg hp] at h
      simp only [List.head?_cons, Option.some.injEq] at h
      subst h
      simpa using hp

theorem stripFront_eq_self (s : Str)
    (h : ∀ c, s.head? = some c → c.isWhitespace = false) : stripFront s = s :=
  dropWhile_eq_self_of_head _ s h

theorem head_stripFront_false (s : Str) (c : Char)
    (h : (stripFront s).head? = some c) : c.isWhitespace = false :=
  head_dropWhile_false _ s c h

theorem stripBack_eq_self (s : Str)
    (h : ∀ c, s.getLast? = some c → c.isWhitespace = false) : stripBack s = s := by
  unfold stripBack
  rw [dropWhile_eq_self_of_head _ _ (by simpa [List.head?_reverse] using h),
    List.reverse_reverse]

theorem getLast_stripBack_false (s : Str) (c : Char)
    (h : (stripBack s).getLast? = some c) : c.isWhitespace = false := by
  unfold stripBack at h
  rw [List.getLast?_reverse] at h
  exact head_dropWhile_false _ _ _ h

theorem stripBack_prefix (s : Str) : ∃ u, s = stripBack s ++ u := by
  refine ⟨(s.reverse.takeWhile Char.isWhitespace).reverse, ?_⟩
  unfold stripBack
  rw [← List.reverse_append, List.takeWhile_append_dropWhile, List.reverse_reverse]

theorem pyStrip_eq_self (s : Str)
    (h1 : ∀ c, s.head? = some c → c.isWhitespace = false)
    (h2 : ∀ c, s.getLast? = some c → c.isWhitespace = false) : pyStrip s = s := by
  unfold pyStrip
  rw [stripFront_eq_self s h1, stripBack_eq_self s h2]

theorem head_pyStrip_false (s : Str) (c : Char)
    (h : (pyStrip s).head? = some c) : c.isWhitespace = false := by
  unfold pyStrip at h
  obtain ⟨u, hu⟩ := stripBack_prefix (stripFront s)
  apply head_stripFront_false s c
  rcases he : stripBack (stripFront s) with _ | ⟨d, t⟩
  · rw [he] at h
    simp at h
  · rw [he] at h
    simp only [List.head?_cons, Option.some.injEq] at h
    subst h
    rw [he] at hu
    rw [hu]
    rfl

theorem getLast_pyStrip_false (s : Str) (c : Char)
    (h : (pyStrip s).getLast? = some c) : c.isWhitespace = false :=
  getLast_stripBack_false _ c h

theorem pyStrip_idem (s : Str) : pyStrip (pyStrip s) = pyStrip s :=
  pyStrip_eq_self _ (head_pyStrip_false s) (getLast_pyStrip_false s)

theorem pyStrip_nil : pyStrip [] = [] := rfl

theorem pyStrip_eq_nil_iff (s : Str) :
    pyStrip s = [] ↔ ∀ c ∈ s, c.isWhitespace = true := by
  unfold pyStrip stripBack
  constructor
  · intro h c hc
    rw [List.reverse_eq_nil_iff, List.dropWhile_eq_nil_iff] at h
    have hsplit := List.takeWhile_append_dropWhile Char.isWhitespace s
    rw [← hsplit] at hc
    rcases List.mem_append.mp hc with hm | hm
    · exact List.mem_takeWhile_imp hm
    · exact h c (List.mem_reverse.mpr hm)
  · intro h
    rw [List.reverse_eq_nil_iff, List.dropWhile_eq_nil_iff]
    intro c hc
    exact h c (by
      have : c ∈ stripFront s := List.mem_reverse.mp hc
      have hsplit := List.takeWhile_append_dropWhile Char.isWhitespace s
      rw [← hsplit]
      exact List.mem_append.mpr (Or.inr this))

theorem pyStrip_of_no_ws (s : Str) (h : ∀ c ∈ s, c.isWhitespace = false) :
    pyStrip s = s := by
  apply pyStrip_eq_self
  · intro c hc
    exact h c (List.mem_of_mem_head? (by simp [hc]))
  · intro c hc
    exact h c (List.mem_of_mem_getLast? (by simp [hc]))

theorem pySplit_ne_nil (sep : Char) (s : Str) : pySplit sep s ≠ [] := by
  cases s with
  | nil => simp [pySplit]
  | cons c rest =>
    unfold pySplit
    rcases h : pySplit sep rest with _ | ⟨a, t⟩
    · simp
    · by_cases hc : c = sep <;> simp [hc]

theorem pySplit_no_sep (sep : Char) (s : Str) (h : ∀ c ∈ s, c ≠ sep) :
    pySplit sep s = [s] := by
  induction s with
  | nil => rfl
  | cons c rest ih =>
    unfold pySplit
    rw [ih (fun d hd => h d (List.mem_cons_of_mem c hd))]
    simp [h c (List.mem_cons_self c rest)]

theorem pySplit_cons (sep c : Char) (rest : Str) :
    pySplit sep (c :: rest) =
      match pySplit sep rest with
      | [] => [[c]]
      | h :: t => if c = sep then [] :: h :: t else (c :: h) :: t := rfl

theorem pySplit_append_sep (sep : Char) (x r : Str) (h : ∀ c ∈ x, c ≠ sep) :
    pySplit sep (x ++ sep :: r) = x :: pySplit sep r := by
  induction x with
  | nil =>
    show pySplit sep (sep :: r) = [] :: pySplit sep r
    rw [pySplit_cons]
    rcases hr : pySplit sep r with _ | ⟨a, t⟩
    · exact absurd hr (pySplit_ne_nil sep r)
    · simp
  | cons c x' ih =>
    show pySplit sep (c :: (x' ++ sep :: r)) = (c :: x') :: pySplit sep r
    rw [pySplit_cons, ih (fun d hd => h d (List.mem_cons_of_mem c hd))]
    simp [h c (List.mem_cons_self c x')]

theorem joinNl_cons_cons (x y : Str) (t : List Str) :
    joinNl (x :: y :: t) = x ++ '\n' :: joinNl (y :: t) := rfl

theorem mem_joinNl_of_mem (ls : List Str) (x : Str) (c : Char)
    (hx : x ∈ ls) (hc : c ∈ x) : c ∈ joinNl ls := by
  induction ls with
  | nil => cases hx
  | cons a t ih =>
    cases t with
    | nil =>
      rcases List.mem_cons.mp hx with rfl | h
      · exact hc
      · cases h
    | cons b t' =>
      rw [joinNl_cons_cons]
      rcases List.mem_cons.mp hx with rfl | h
      · exact List.mem_append.mpr (Or.inl hc)
      · exact List.mem_append.mpr (Or.inr (List.mem_cons_of_mem _ (ih h)))

theorem head?_joinNl (x : Str) (t : List Str) (hx : x ≠ []) :
    (joinNl (x :: t)).head? = x.head? := by
  cases t with
  | nil => rfl
  | cons y t' =>
    rw [joinNl_cons_cons]
    cases x with
    | nil => exact absurd rfl hx
    | cons c x' => rfl

theorem getLast?_joinNl (ls : List Str) (h : ∀ x ∈ ls, x ≠ []) (hne : ls ≠ []) :
    ∃ z ∈ ls, (joinNl ls).getLast? = z.getLast? := by
  induction ls with
  | nil => exact absurd rfl hne
  | cons a t ih =>
    cases t with
    | nil => exact ⟨a, List.mem_cons_self a [], rfl⟩
    | cons b t' =>
      obtain ⟨z, hz, hzl⟩ := ih (fun x hx => h x (List.mem_cons_of_mem a hx)) (by simp)
      refine ⟨z, List.mem_cons_of_mem a hz, ?_⟩
      rw [joinNl_cons_cons]
      rw [List.getLast?_append_of_ne_nil a (by simp)]
      have hj : joinNl (b :: t') ≠ [] := by
        intro hcontra
        have hb := h b (by simp)
        have := head?_joinNl b t' hb
        rw [hcontra] at this
        cases b with
        | nil => exact hb rfl
        | cons c x' => simp at this
      rcases hrep : joinNl (b :: t') with _ | ⟨d, u⟩
      · exact absurd hrep hj
      · rw [hrep] at hzl
        rw [List.getLast?_cons_cons]
        exact hzl

theorem joinNl_ne_nil (x : Str) (t : List Str) (hx : x ≠ []) : joinNl (x :: t) ≠ [] := by
  intro hcontra
  have := head?_joinNl x t hx
  rw [hcontra] at this
  cases x with
  | nil => exact hx rfl
  | cons c x' => simp at this

theorem pyStrip_joinNl (ls : List Str)
    (h : ∀ x ∈ ls, x ≠ [] ∧ ∀ c ∈ x, c.isWhitespace = false) :
    pyStrip (joinNl ls) = joinNl ls := by
  cases ls with
  | nil => rfl
  | cons a t =>
    apply pyStrip_eq_self
    · intro c hc
      rw [head?_joinNl a t (h a (by simp)).1] at hc
      exact (h a (by simp)).2 c (List.mem_of_mem_head? (by simp [hc]))
    · intro c hc
      obtain ⟨z, hz, hzl⟩ := getLast?_joinNl (a :: t) (fun x hx => (h x hx).1) (by simp)
      rw [hzl] at hc
      exact (h z hz).2 c (List.mem_of_mem_getLast? (by simp [hc]))

theorem pySplit_joinNl (ls : List Str) (hne : ls ≠ [])
    (h : ∀ x ∈ ls, ∀ c ∈ x, c ≠ '\n') :
    pySplit '\n' (joinNl ls) = ls := by
  induction ls with
  | nil => exact absurd rfl hne
  | cons a t ih =>
    cases t with
    | nil => exact pySplit_no_sep '\n' a (h a (by simp))
    | cons b t' =>
      rw [joinNl_cons_cons, pySplit_append_sep '\n' a _ (h a (by simp))]
      rw [ih (by simp) (fun x hx => h x (List.mem_cons_of_mem a hx))]

/-! Facts about Python substring containment. -/

theorem leadsWith_iff (p s : Str) : leadsWith p s = true ↔ ∃ t, s = p ++ t := by
  induction p generalizing s with
  | nil => simp [leadsWith]
  | cons a p' ih =>
    cases s with
    | nil =>
      simp only [leadsWith]
      constructor
      · intro h
        cases h
      · rintro ⟨t, ht⟩
        cases ht
    | cons c cs =>
      simp only [leadsWith, Bool.and_eq_true, beq_iff_eq, ih]
      constructor
      · rintro ⟨rfl, t, rfl⟩
        exact ⟨t, rfl⟩
      · rintro ⟨t, ht⟩
        rw [List.cons_append] at ht
        injection ht with h1 h2
        exact ⟨h1.symm, t, h2⟩

theorem containsSub_iff (p s : Str) :
    containsSub p s = true ↔ ∃ a b, s = a ++ (p ++ b) := by
  induction s with
  | nil =>
    simp only [containsSub, leadsWith_iff]
    constructor
    · rintro ⟨t, ht⟩
      exact ⟨[], t, ht⟩
    · rintro ⟨a, b, ht⟩
      rcases a with _ | ⟨x, a'⟩
      · exact ⟨b, ht⟩
      · cases ht
  | cons c cs ih =>
    simp only [containsSub, Bool.or_eq_true, leadsWith_iff, ih]
    constructor
    · rintro (⟨t, ht⟩ | ⟨a, b, hab⟩)
      · exact ⟨[], t, ht⟩
      · exact ⟨c :: a, b, by rw [hab]; rfl⟩
    · rintro ⟨a, b, hab⟩
      rcases a with _ | ⟨x, a'⟩
      · exact Or.inl ⟨b, hab⟩
      · rw [List.cons_append] at hab
        injection hab with h1 h2
        exact Or.inr ⟨a', b, h2⟩

theorem containsSub_reverse (p s : Str) :
    containsSub p.reverse s.reverse = containsSub p s := by
  rcases hx : containsSub p s with _ | _
  · rcases hy : containsSub p.reverse s.reverse with _ | _
    · rfl
    · exfalso
      obtain ⟨a, b, hab⟩ := (containsSub_iff _ _).mp hy
      have : s = b.reverse ++ (p ++ a.reverse) := by
        have := congrArg List.reverse hab
        simpa [List.reverse_append, List.append_assoc] using this
      have := (containsSub_iff p s).mpr ⟨b.reverse, a.reverse, this⟩
      rw [hx] at this
      cases this
  · obtain ⟨a, b, hab⟩ := (containsSub_iff _ _).mp hx
    apply (containsSub_iff _ _).mpr
    refine ⟨b.reverse, a.reverse, ?_⟩
    rw [hab]
    simp [List.reverse_append, List.append_assoc]

theorem containsSub_stripFront (p s : Str) (c : Char) (hp : p.head? = some c)
    (hc : c.isWhitespace = false) (h : containsSub p s = true) :
    containsSub p (stripFront s) = true := by
  induction s with
  | nil => exact h
  | cons a t ih =>
    simp only [containsSub, Bool.or_eq_true] at h
    rcases h with hlead | htail
    · have ha : a.isWhitespace = false := by
        rcases p with _ | ⟨pc, p'⟩
        · cases hp
        · simp only [List.head?_cons, Option.some.injEq] at hp
          simp only [leadsWith, Bool.and_eq_true, beq_iff_eq] at hlead
          rw [← hlead.1, hp]
          exact hc
      have hsf : stripFront (a :: t) = a :: t := by
        simp [stripFront, List.dropWhile_cons, ha]
      rw [hsf]
      simp only [containsSub, Bool.or_eq_true]
      exact Or.inl hlead
    · by_cases hwa : a.isWhitespace
      · have hsf : stripFront (a :: t) = stripFront t := by
          simp [stripFront, List.dropWhile_cons, hwa]
        rw [hsf]
        exact ih htail
      · have hsf : stripFront (a :: t) = a :: t := by
          simp [stripFront, List.dropWhile_cons, hwa]
        rw [hsf]
        simp only [containsSub, Bool.or_eq_true]
        exact Or.inr htail

theorem containsSub_pyStrip (p s : Str) (c d : Char)
    (hph : p.head? = some c) (hc : c.isWhitespace = false)
    (hpl : p.getLast? = some d) (hd : d.isWhitespace = false)
    (h : containsSub p s = true) : containsSub p (pyStrip s) = true := by
  have step1 : containsSub p (stripFront s) = true :=
    containsSub_stripFront p s c hph hc h
  unfold pyStrip stripBack
  rw [← containsSub_reverse, List.reverse_reverse]
  apply containsSub_stripFront p.reverse _ d
  · rw [List.head?_reverse]
    exact hpl
  · exact hd
  · rw [containsSub_reverse]
    exact step1

/-! Facts about the repository well-formedness conditions. -/

theorem parentsAt_nil (i : Nat) : parentsAt [] i = [] := rfl

theorem parOkFrom_spec (cs : List CommitData) (k : Nat) (h : parOkFrom k cs = true) :
    ∀ j p, p ∈ parentsAt cs j → p < k + j := by
  induction cs generalizing k with
  | nil =>
    intro j p hp
    rw [parentsAt_nil] at hp
    cases hp
  | cons c rest ih =>
    simp only [parOkFrom, Bool.and_eq_true] at h
    intro j p hp
    cases j with
    | zero =>
      have hp' : p ∈ c.parents := by simpa [parentsAt, dataAt] using hp
      have := List.all_eq_true.mp h.1 p hp'
      simpa using this
    | succ j' =>
      have hp' : p ∈ parentsAt rest j' := by
        simpa [parentsAt, dataAt, List.getElem?_cons_succ] using hp
      have := ih (k + 1) h.2 j' p hp'
      omega

theorem env_par (env : Env) : ∀ i p, p ∈ parentsAt env.commits i → p < i := by
  have h := env.hwf
  simp only [repoOk, Bool.and_eq_true] at h
  intro i p hp
  have := parOkFrom_spec env.commits 0 h.1.1 i p hp
  omega

theorem env_hash (env : Env) (i : Nat) (hi : i < env.commits.length) :
    hashAt env.commits i ≠ [] ∧
      ∀ ch ∈ hashAt env.commits i, ch.isWhitespace = false := by
  have h := env.hwf
  simp only [repoOk, Bool.and_eq_true] at h
  have hmem : env.commits[i] ∈ env.commits := List.getElem_mem hi
  have hok := List.all_eq_true.mp h.1.2 _ hmem
  simp only [hashOk, Bool.and_eq_true, Bool.not_eq_true'] at hok
  have hdat : dataAt env.commits i = env.commits[i] := by
    simp [dataAt, List.getElem?_eq_getElem hi]
  constructor
  · intro hnil
    rw [hashAt, hdat] at hnil
    rw [hnil] at hok
    simp [List.isEmpty] at hok
  · intro ch hch
    rw [hashAt, hdat] at hch
    have := List.all_eq_true.mp hok.2 ch hch
    simpa using this

theorem env_nodup (env : Env) : (env.commits.map (fun c => c.hash)).Nodup := by
  have h := env.hwf
  simp only [repoOk, Bool.and_eq_true, decide_eq_true_eq] at h
  exact h.2

theorem env_hash_inj (env : Env) (i j : Nat) (hi : i < env.commits.length)
    (hj : j < env.commits.length)
    (h : hashAt env.commits i = hashAt env.commits j) : i = j := by
  have hnd := env_nodup env
  have hlen : env.commits.length = (env.commits.map (fun c => c.hash)).length := by simp
  have hgi : (env.commits.map (fun c => c.hash)).get ⟨i, by omega⟩ = hashAt env.commits i := by
    simp [hashAt, dataAt, List.getElem?_eq_getElem hi]
  have hgj : (env.commits.map (fun c => c.hash)).get ⟨j, by omega⟩ = hashAt env.commits j := by
    simp [hashAt, dataAt, List.getElem?_eq_getElem hj]
  have : (⟨i, by omega⟩ : Fin (env.commits.map (fun c => c.hash)).length) = ⟨j, by omega⟩ := by
    apply (List.Nodup.get_inj_iff hnd).mp
    rw [hgi, hgj, h]
  simpa using congrArg Fin.val this

/-! Facts about reachability. -/

theorem reachFuel_sound (cs : List CommitData) (f i j : Nat)
    (h : reachFuel cs f i j = true) : Reaches cs i j := by
  induction f generalizing i with
  | zero =>
    simp only [reachFuel, beq_iff_eq] at h
    subst h
    exact Reaches.refl i
  | succ f' ih =>
    simp only [reachFuel, Bool.or_eq_true, beq_iff_eq, List.any_eq_true] at h
    rcases h with rfl | ⟨p, hp, hr⟩
    · exact Reaches.refl i
    · exact Reaches.step hp (ih p hr)

theorem reaches_le (cs : List CommitData)
    (hpar : ∀ i p, p ∈ parentsAt cs i → p < i) {i j : Nat}
    (h : Reaches cs i j) : j ≤ i := by
  induction h with
  | refl => exact Nat.le_refl _
  | step hp _ ih =>
    have := hpar _ _ hp
    omega

theorem reachFuel_complete (cs : List CommitData)
    (hpar : ∀ i p, p ∈ parentsAt cs i → p < i) {i j : Nat}
    (h : Reaches cs i j) : ∀ f, i ≤ f → reachFuel cs f i j = true := by
  induction h with
  | refl =>
    intro f _
    cases f with
    | zero => simp [reachFuel]
    | succ f' => simp [reachFuel]
  | @step i p j hp _ ih =>
    intro f hf
    have hpi : p < i := hpar _ _ hp
    cases f with
    | zero => omega
    | succ f' =>
      simp only [reachFuel, Bool.or_eq_true, List.any_eq_true]
      exact Or.inr ⟨p, hp, ih f' (by omega)⟩

theorem reach_iff (cs : List CommitData)
    (hpar : ∀ i p, p ∈ parentsAt cs i → p < i) (i j : Nat) :
    reach cs i j = true ↔ Reaches cs i j := by
  constructor
  · exact reachFuel_sound cs i i j
  · intro h
    exact reachFuel_complete cs hpar h i (Nat.le_refl i)

theorem reach_parent_false (env : Env) (i p : Nat)
    (hp : p ∈ parentsAt env.commits i) : reach env.commits p i = false := by
  rcases h : reach env.commits p i with _ | _
  · rfl
  · exfalso
    have hr := (reach_iff env.commits (env_par env) p i).mp h
    have hle := reaches_le env.commits (env_par env) hr
    have := env_par env i p hp
    omega

/-! Facts about revision resolution and run_command. -/

theorem find?_append_some {α : Type} (p : α → Bool) (l1 l2 : List α) (a : α)
    (h : l1.find? p = some a) : (l1 ++ l2).find? p = some a := by
  induction l1 with
  | nil => simp [List.find?] at h
  | cons x t ih =>
    rcases hx : p x with _ | _
    · rw [List.find?_cons_of_neg _ (by simp [hx])] at h
      rw [List.cons_append, List.find?_cons_of_neg _ (by simp [hx])]
      exact ih h
    · rw [List.find?_cons_of_pos _ hx] at h
      rw [List.cons_append, List.find?_cons_of_pos _ hx]
      exact h

theorem find?_append_none {α : Type} (p : α → Bool) (l1 l2 : List α)
    (h : l1.find? p = none) : (l1 ++ l2).find? p = l2.find? p := by
  induction l1 with
  | nil => rfl
  | cons x t ih =>
    rcases hx : p x with _ | _
    · rw [List.find?_cons_of_neg _ (by simp [hx])] at h
      rw [List.cons_append, List.find?_cons_of_neg _ (by simp [hx])]
      exact ih h
    · rw [List.find?_cons_of_pos _ hx] at h
      cases h

theorem find_range_eq (p : Nat → Bool) (n i : Nat) (hi : i < n) (hp : p i = true)
    (huniq : ∀ j, j < n → p j = true → j = i) :
    (List.range n).find? p = some i := by
  induction n with
  | zero => omega
  | succ n' ih =>
    rw [List.range_succ n']
    by_cases hin : i < n'
    · exact find?_append_some p _ _ i (ih hin (fun j hj hpj => huniq j (by omega) hpj))
    · have hie : i = n' := by omega
      subst hie
      have hnone : (List.range i).find? p = none := by
        rw [List.find?_eq_none]
        intro x hx hpx
        have := huniq x (by
          have := List.mem_range.mp hx
          omega) (by simpa using hpx)
        have := List.mem_range.mp hx
        omega
      rw [find?_append_none p _ _ hnone]
      simp [List.find?, hp]

theorem resolve_hash_self (env : Env) (i : Nat) (hi : i < env.commits.length) :
    resolve env (hashAt env.commits i) = some i := by
  unfold resolve
  rw [find_range_eq _ env.commits.length i hi (by simp) (fun j hj hpj =>
    env_hash_inj env j i hj hi (by simpa using hpj))]

theorem resolve_lt (env : Env) (s : Str) (i : Nat) (h : resolve env s = some i) :
    i < env.commits.length := by
  unfold resolve at h
  split at h
  · rename_i j hf
    injection h with h
    subst h
    exact List.mem_range.mp (List.mem_of_find?_eq_some hf)
  · split at h
    · split at h
      · rename_i hk
        injection h with h
        omega
      · cases h
    · cases h

theorem run_command_ok (env : Env) (cmd : GitCmd) (out : Str)
    (hfail : env.failCmd cmd = false) (hout : gitExec env cmd = some out) :
    run_command env cmd = .ok (pyStrip out) := by
  simp [run_command, hfail, hout]

theorem run_command_ok_inv (env : Env) (cmd : GitCmd) (v : Str)
    (h : run_command env cmd = .ok v) :
    env.failCmd cmd = false ∧ ∃ out, gitExec env cmd = some out ∧ v = pyStrip out := by
  unfold run_command at h
  rcases hf : env.failCmd cmd with _ | _
  · rw [if_neg (by simp [hf])] at h
    rcases hg : gitExec env cmd with _ | out
    · rw [hg] at h
      cases h
    · rw [hg] at h
      injection h with h
      exact ⟨rfl, out, rfl, h.symm⟩
  · rw [if_pos (by simp [hf])] at h
    cases h

theorem run_command_error_inv (env : Env) (cmd : GitCmd) (x : Exn)
    (h : run_command env cmd = .error x) :
    x = .systemExit [errLine1 cmd, errLine2 env cmd] := by
  unfold run_command at h
  rcases hf : env.failCmd cmd with _ | _
  · rw [if_neg (by simp [hf])] at h
    rcases hg : gitExec env cmd with _ | out
    · rw [hg] at h
      injection h with h
      exact h.symm
    · rw [hg] at h
      cases h
  · rw [if_pos (by simp [hf])] at h
    injection h with h
    exact h.symm

theorem run_command_never_cpe (env : Env) (cmd : GitCmd) :
    run_command env cmd ≠ .error .calledProcessError := by
  intro h
  have := run_command_error_inv env cmd _ h
  cases this

theorem run_command_ok_strip_fix (env : Env) (cmd : GitCmd) (v : Str)
    (h : run_command env cmd = .ok v) : v = pyStrip v := by
  obtain ⟨-, out, -, rfl⟩ := run_command_ok_inv env cmd v h
  exact (pyStrip_idem out).symm

/-! Range-enumeration membership facts. -/

theorem mem_rangeDesc (cs : List CommitData) (a b i : Nat) :
    i ∈ rangeDesc cs a b ↔
      i < cs.length ∧ reach cs b i = true ∧ reach cs a i = false := by
  unfold rangeDesc
  rw [List.mem_reverse, List.mem_filter, List.mem_range]
  simp only [Bool.and_eq_true, Bool.not_eq_true']

theorem mem_commitsQuery (cs : List CommitData) (sp b i : Nat) (f : Str) :
    i ∈ commitsQuery cs sp b f ↔
      i < cs.length ∧ reach cs b i = true ∧ reach cs sp i = false ∧
        isMerge cs i = false ∧ touches cs i f = true := by
  unfold commitsQuery
  rw [List.mem_filter, mem_rangeDesc]
  simp only [Bool.and_eq_true, Bool.not_eq_true']
  tauto

theorem mem_commitsQuery_lt (cs : List CommitData) (sp b i : Nat) (f : Str)
    (h : i ∈ commitsQuery cs sp b f) : i < cs.length :=
  ((mem_commitsQuery cs sp b i f).mp h).1

theorem mem_mergesQuery (cs : List CommitData) (a b i : Nat) :
    i ∈ mergesQuery cs a b ↔
      i < cs.length ∧ reach cs b i = true ∧ reach cs a i = false ∧
        isMerge cs i = true := by
  unfold mergesQuery
  rw [List.mem_filter, mem_rangeDesc]
  tauto

theorem mem_innerAsc (cs : List CommitData) (a b i : Nat) :
    i ∈ innerAsc cs a b ↔
      i < cs.length ∧ reach cs b i = true ∧ reach cs a i = false ∧
        isMerge cs i = false := by
  unfold innerAsc
  rw [List.mem_reverse, List.mem_filter, mem_rangeDesc]
  simp only [Bool.and_eq_true, Bool.not_eq_true']
  tauto

theorem mem_affectsQuery (cs : List CommitData) (a b i : Nat) (f : Str) :
    i ∈ affectsQuery cs a b f ↔
      i < cs.length ∧ reach cs b i = true ∧ reach cs a i = false ∧
        touches cs i f = true := by
  unfold affectsQuery
  rw [List.mem_filter, mem_rangeDesc]
  tauto

/-- Hash lines produced by a git enumeration are nonempty and
whitespace-free whenever all listed indices are in range. -/
theorem hash_lines_ok (env : Env) (is : List Nat)
    (his : ∀ i ∈ is, i < env.commits.length) :
    ∀ x ∈ is.map (hashAt env.commits), x ≠ [] ∧
      ∀ c ∈ x, c.isWhitespace = false := by
  intro x hx
  obtain ⟨i, hi, rfl⟩ := List.mem_map.mp hx
  exact env_hash env i (his i hi)

/-- Round trip of an enumeration: stripping then splitting the raw
newline-joined hash listing recovers the hash list. -/
theorem strip_split_hashes (env : Env) (is : List Nat)
    (his : ∀ i ∈ is, i < env.commits.length) :
    (if pyStrip (joinNl (is.map (hashAt env.commits))) = [] then ([] : List Str)
     else pySplit '\n' (pyStrip (joinNl (is.map (hashAt env.commits))))) =
      is.map (hashAt env.commits) := by
  have helems := hash_lines_ok env is his
  have hstrip : pyStrip (joinNl (is.map (hashAt env.commits))) =
      joinNl (is.map (hashAt env.commits)) := pyStrip_joinNl _ helems
  rw [hstrip]
  cases his2 : is.map (hashAt env.commits) with
  | nil => simp [joinNl]
  | cons q qt =>
    have hq : q ≠ [] := (helems q (by rw [his2]; simp)).1
    rw [if_neg (joinNl_ne_nil q qt hq)]
    apply pySplit_joinNl
    · simp
    · intro x hx c hc
      have := (helems x (by rw [his2]; exact hx)).2 c hc
      intro hcnl
      rw [hcnl] at this
      simp [Char.isWhitespace] at this

namespace Commits

/-- Record get_commit_details assembles for the commit at index i when
the argument string is the hash of that commit. -/
def recordOfIdx (env : Env) (i : Nat) : CommitRecord :=
  { hash := hashAt env.commits i,
    author := pyStrip (dataAt env.commits i).author,
    date := pyStrip (dataAt env.commits i).date,
    message := pyStrip (dataAt env.commits i).messageB,
    modified_files :=
      (pySplit '\n' (pyStrip (joinNl (dataAt env.commits i).files))).filter
        (fun f => f ≠ []) }

theorem get_commit_details_hash (env : Env) (i : Nat) (hi : i < env.commits.length)
    (hfail : ∀ c, env.failCmd c = false) :
    get_commit_details env (hashAt env.commits i) = .ok (recordOfIdx env i) := by
  have hres := resolve_hash_self env i hi
  simp [get_commit_details, run_command, hfail, gitExec, hres, recordOfIdx]

theorem details_loop_hashes (env : Env) (is : List Nat)
    (his : ∀ i ∈ is, i < env.commits.length)
    (hfail : ∀ c, env.failCmd c = false) :
    details_loop env (is.map (hashAt env.commits)) = .ok (is.map (recordOfIdx env)) := by
  induction is with
  | nil => rfl
  | cons i t ih =>
    have hi := his i (by simp)
    have hne := (env_hash env i hi).1
    simp only [List.map_cons, details_loop]
    rw [if_neg hne, get_commit_details_hash env i hi hfail,
      ih (fun j hj => his j (List.mem_cons_of_mem i hj))]
    rfl

/-- Happy path of commits.py: repository present, no external failure,
both references resolving, and the start commit having a first parent.
The run prints exactly the report of the enumerated range. -/
theorem main_ok (env : Env) (start_ref end_ref : Str) (si ei sp : Nat)
    (hrepo : env.inRepo = true)
    (hfail : ∀ c, env.failCmd c = false)
    (hs : resolve env start_ref = some si)
    (he : resolve env end_ref = some ei)
    (hsp : (parentsAt env.commits si)[0]? = some sp) :
    main env start_ref end_ref =
      ⟨[{ target_file := target_file, start_ref := start_ref, end_ref := end_ref,
          commit_count := (commitsQuery env.commits sp ei target_file).length,
          commits := (commitsQuery env.commits sp ei target_file).map (recordOfIdx env) }],
       [progress_line start_ref end_ref], 0⟩ := by
  have hsi := resolve_lt env start_ref si hs
  have hei := resolve_lt env end_ref ei he
  have c1 : run_command env (.revParse start_ref) =
      .ok (pyStrip (hashAt env.commits si)) :=
    run_command_ok _ _ _ (hfail _) (by simp [gitExec, hs])
  have c2 : run_command env (.revParse end_ref) =
      .ok (pyStrip (hashAt env.commits ei)) :=
    run_command_ok _ _ _ (hfail _) (by simp [gitExec, he])
  have hqlt : ∀ i ∈ commitsQuery env.commits sp ei target_file,
      i < env.commits.length := fun i hi => mem_commitsQuery_lt _ _ _ _ _ hi
  have c3 : run_command env (.logFileNoMerges start_ref end_ref target_file) =
      .ok (pyStrip (joinNl ((commitsQuery env.commits sp ei target_file).map
        (hashAt env.commits)))) :=
    run_command_ok _ _ _ (hfail _) (by simp [gitExec, hs, he, hsp])
  have c4 : get_commits_between_refs env start_ref end_ref target_file =
      .ok ((commitsQuery env.commits sp ei target_file).map (hashAt env.commits)) := by
    rw [get_commits_between_refs, c3]
    rw [exceptBind_ok]
    rw [strip_split_hashes env _ hqlt]
    rfl
  have c5 := details_loop_hashes env (commitsQuery env.commits sp ei target_file)
    hqlt hfail
  rw [main, if_neg (by simp [hrepo]), c1, exceptBind_ok, c2, exceptBind_ok, c4,
    exceptBind_ok, c5]
  simp [pure, Except.pure, List.length_map]

end Commits

/-! Small helper facts reused below. -/

theorem mem_of_getElem? {α : Type} (l : List α) (i : Nat) (a : α)
    (h : l[i]? = some a) : a ∈ l := by
  obtain ⟨hlt, rfl⟩ := List.getElem?_eq_some.mp h
  exact List.getElem_mem hlt

/-! Concrete environments used by the witnesses. -/

/-- Concrete repository: a root commit and a child that modifies the
target file. -/
def envC : Env :=
  { commits :=
      [ { hash := chars "a0", parents := [], subject := chars "init",
          body := chars "", messageB := chars "init", author := chars "Ann <a@x>",
          date := chars "2024-01-01 00:00:00 +0000", files := [chars "README"] },
        { hash := chars "a1", parents := [0], subject := chars "bpf: fix check",
          body := chars "fix it", messageB := chars "bpf: fix check\n\nfix it\n",
          author := chars "Bob <b@x>", date := chars "2024-01-02 00:00:00 +0000",
          files := [chars "kernel/bpf/verifier.c"] } ],
    refs := [(chars "v1", 1)],
    inRepo := true,
    failCmd := fun _ => false,
    errDetails := fun _ => [],
    hwf := by decide }

/-- Concrete repository whose range holds no commit touching the target
file. -/
def envC3 : Env :=
  { commits :=
      [ { hash := chars "a0", parents := [], subject := chars "init",
          body := chars "", messageB := chars "init", author := chars "Ann <a@x>",
          date := chars "2024-01-01 00:00:00 +0000", files := [chars "README"] },
        { hash := chars "a1", parents := [0], subject := chars "net: tweak",
          body := chars "", messageB := chars "net: tweak", author := chars "Bob <b@x>",
          date := chars "2024-01-02 00:00:00 +0000", files := [chars "net/socket.c"] } ],
    refs := [],
    inRepo := true,
    failCmd := fun _ => false,
    errDetails := fun _ => [],
    hwf := by decide }

/-- Claim C1: when the commit named by start_ref is a non-merge commit
modifying kernel/bpf/verifier.c and lies in the enumerated range (it is
reachable from end_ref and the start_ref caret-exclusion convention
keeps it), the Commit History Reporter's report contains it. -/
theorem C1_start_boundary_included (env : Env) (start_ref end_ref : Str)
    (si ei sp : Nat)
    (hrepo : env.inRepo = true)
    (hfail : ∀ c, env.failCmd c = false)
    (hs : resolve env start_ref = some si)
    (he : resolve env end_ref = some ei)
    (hsp : (parentsAt env.commits si)[0]? = some sp)
    (hin : reach env.commits ei si = true)
    (hnm : isMerge env.commits si = false)
    (ht : touches env.commits si Commits.target_file = true) :
    ∃ r, (Commits.main env start_ref end_ref).stdout = [r] ∧
      hashAt env.commits si ∈ r.commits.map (fun rec => rec.hash) := by
  have hsi := resolve_lt env start_ref si hs
  have hspmem : sp ∈ parentsAt env.commits si := mem_of_getElem? _ 0 sp hsp
  have hnr : reach env.commits sp si = false := reach_parent_false env si sp hspmem
  have hmem : si ∈ commitsQuery env.commits sp ei Commits.target_file :=
    (mem_commitsQuery env.commits sp ei si Commits.target_file).mpr
      ⟨hsi, hin, hnr, hnm, ht⟩
  rw [Commits.main_ok env start_ref end_ref si ei sp hrepo hfail hs he hsp]
  refine ⟨_, rfl, ?_⟩
  apply List.mem_map.mpr
  exact ⟨Commits.recordOfIdx env si, List.mem_map.mpr ⟨si, hmem, rfl⟩, rfl⟩

/-- Witness for C1: in the concrete repository envC, running the tool
from a1 to a1 reports the commit a1 itself. -/
theorem C1_witness :
    envC.inRepo = true ∧
    resolve envC (chars "a1") = some 1 ∧
    (parentsAt envC.commits 1)[0]? = some 0 ∧
    reach envC.commits 1 1 = true ∧
    isMerge envC.commits 1 = false ∧
    touches envC.commits 1 Commits.target_file = true ∧
    ∃ r, (Commits.main envC (chars "a1") (chars "a1")).stdout = [r] ∧
      hashAt envC.commits 1 ∈ r.commits.map (fun rec => rec.hash) :=
  ⟨by decide, by decide, by decide, by decide, by decide, by decide,
   C1_start_boundary_included envC (chars "a1") (chars "a1") 1 1 0 (by decide)
     (fun _ => rfl) (by decide) (by decide) (by decide) (by decide) (by decide)
     (by decide)⟩

/-- Claim C3: with both preconditions passing and all queries
succeeding, a range holding no qualifying commit still yields exit
status 0 and a complete report with commit_count 0 and an empty commits
array. -/
theorem C3_empty_range_success (env : Env) (start_ref end_ref : Str)
    (si ei sp : Nat)
    (hrepo : env.inRepo = true)
    (hfail : ∀ c, env.failCmd c = false)
    (hs : resolve env start_ref = some si)
    (he : resolve env end_ref = some ei)
    (hsp : (parentsAt env.commits si)[0]? = some sp)
    (hnone : ∀ i ∈ List.range env.commits.length,
      reach env.commits ei i = true → reach env.commits sp i = false →
      isMerge env.commits i = true ∨
        touches env.commits i Commits.target_file = false) :
    (Commits.main env start_ref end_ref).exitCode = 0 ∧
    (Commits.main env start_ref end_ref).stdout =
      [{ target_file := Commits.target_file, start_ref := start_ref,
         end_ref := end_ref, commit_count := 0, commits := [] }] := by
  have hq : commitsQuery env.commits sp ei Commits.target_file = [] := by
    rw [List.eq_nil_iff_forall_not_mem]
    intro i hi
    obtain ⟨hlt, hb, ha, hm, ht⟩ :=
      (mem_commitsQuery env.commits sp ei i Commits.target_file).mp hi
    rcases hnone i (List.mem_range.mpr hlt) hb ha with hcontra | hcontra
    · rw [hm] at hcontra
      cases hcontra
    · rw [ht] at hcontra
      cases hcontra
  rw [Commits.main_ok env start_ref end_ref si ei sp hrepo hfail hs he hsp, hq]
  exact ⟨rfl, rfl⟩

/-- Witness for C3: in envC3 nothing in the range touches the target
file, and the run exits 0 with an empty report. -/
theorem C3_witness :
    envC3.inRepo = true ∧
    resolve envC3 (chars "a1") = some 1 ∧
    (parentsAt envC3.commits 1)[0]? = some 0 ∧
    (∀ i ∈ List.range envC3.commits.length,
      reach envC3.commits 1 i = true → reach envC3.commits 0 i = false →
      isMerge envC3.commits i = true ∨
        touches envC3.commits i Commits.target_file = false) ∧
    (Commits.main envC3 (chars "a1") (chars "a1")).exitCode = 0 ∧
    (Commits.main envC3 (chars "a1") (chars "a1")).stdout =
      [{ target_file := Commits.target_file, start_ref := chars "a1",
         end_ref := chars "a1", commit_count := 0, commits := [] }] :=
  ⟨by decide, by decide, by decide, by decide,
   C3_empty_range_success envC3 (chars "a1") (chars "a1") 1 1 0 (by decide)
     (fun _ => rfl) (by decide) (by decide) (by decide) (by decide)⟩

/-! Inversion helpers for the error monad and option maps. -/

theorem bind_ok_inv {α β : Type} (x : Except Exn α) (f : α → Except Exn β) (b : β)
    (h : (x >>= f) = .ok b) : ∃ a, x = .ok a ∧ f a = .ok b := by
  rcases x with e | a
  · rw [exceptBind_error] at h
    exact Except.noConfusion h
  · rw [exceptBind_ok] at h
    exact ⟨a, rfl, h⟩

theorem bind_error_inv {α β : Type} (x : Except Exn α) (f : α → Except Exn β) (ex : Exn)
    (h : (x >>= f) = .error ex) :
    x = .error ex ∨ ∃ a, x = .ok a ∧ f a = .error ex := by
  rcases x with e | a
  · rw [exceptBind_error] at h
    injection h with h
    exact Or.inl (by rw [h])
  · rw [exceptBind_ok] at h
    exact Or.inr ⟨a, rfl, h⟩

theorem option_map_eq_some {α β : Type} (f : α → β) (o : Option α) (b : β)
    (h : o.map f = some b) : ∃ a, o = some a ∧ b = f a := by
  rcases o with _ | a
  · cases h
  · injection h with h
    exact ⟨a, rfl, h.symm⟩

/-- Parents of an in-range commit are themselves in range and the parent
hash string round-trips through strip and resolution. -/
theorem parent_facts (env : Env) (m q : Nat) (hm : m < env.commits.length)
    (hq : q ∈ parentsAt env.commits m) :
    q < env.commits.length ∧ pyStrip (hashAt env.commits q) = hashAt env.commits q ∧
      resolve env (hashAt env.commits q) = some q := by
  have hqm : q < m := env_par env m q hq
  have hqn : q < env.commits.length := by omega
  exact ⟨hqn, pyStrip_of_no_ws _ (env_hash env q hqn).2, resolve_hash_self env q hqn⟩

namespace Patchsets

theorem get_merge_details_inv (env : Env) (h : Str) (md : MergeDetails)
    (hok : get_merge_details env h = .ok md) :
    ∃ m q1 q2, m < env.commits.length ∧ resolve env h = some m ∧
      (parentsAt env.commits m)[0]? = some q1 ∧
      (parentsAt env.commits m)[1]? = some q2 ∧
      md.hash = h ∧
      md.subject = pyStrip (dataAt env.commits m).subject ∧
      md.body = pyStrip (dataAt env.commits m).body ∧
      md.author = pyStrip (dataAt env.commits m).author ∧
      md.date = pyStrip (dataAt env.commits m).date ∧
      md.parent1 = hashAt env.commits q1 ∧
      md.parent2 = hashAt env.commits q2 := by
  unfold get_merge_details at hok
  obtain ⟨subject, h1, hok⟩ := bind_ok_inv _ _ _ hok
  obtain ⟨body, h2, hok⟩ := bind_ok_inv _ _ _ hok
  obtain ⟨parent1, h3, hok⟩ := bind_ok_inv _ _ _ hok
  obtain ⟨parent2, h4, hok⟩ := bind_ok_inv _ _ _ hok
  obtain ⟨author, h5, hok⟩ := bind_ok_inv _ _ _ hok
  obtain ⟨date, h6, hok⟩ := bind_ok_inv _ _ _ hok
  simp only [pure, Except.pure, Except.ok.injEq] at hok
  subst hok
  obtain ⟨-, o1, hg1, hv1⟩ := run_command_ok_inv _ _ _ h1
  simp only [gitExec] at hg1
  obtain ⟨m, hres, ho1⟩ := option_map_eq_some _ _ _ hg1
  have hmn : m < env.commits.length := resolve_lt env h m hres
  obtain ⟨-, o3, hg3, hv3⟩ := run_command_ok_inv _ _ _ h3
  simp only [gitExec, hres] at hg3
  rcases hq1 : (parentsAt env.commits m)[1 - 1]? with _ | q1
  · rw [hq1] at hg3
    cases hg3
  rw [hq1] at hg3
  injection hg3 with hg3
  obtain ⟨-, o4, hg4, hv4⟩ := run_command_ok_inv _ _ _ h4
  simp only [gitExec, hres] at hg4
  rcases hq2 : (parentsAt env.commits m)[2 - 1]? with _ | q2
  · rw [hq2] at hg4
    cases hg4
  rw [hq2] at hg4
  injection hg4 with hg4
  obtain ⟨-, o2, hg2, hv2⟩ := run_command_ok_inv _ _ _ h2
  simp only [gitExec] at hg2
  obtain ⟨m2, hres2, ho2⟩ := option_map_eq_some _ _ _ hg2
  rw [hres] at hres2
  injection hres2 with hres2
  subst hres2
  obtain ⟨-, o5, hg5, hv5⟩ := run_command_ok_inv _ _ _ h5
  simp only [gitExec] at hg5
  obtain ⟨m5, hres5, ho5⟩ := option_map_eq_some _ _ _ hg5
  rw [hres] at hres5
  injection hres5 with hres5
  subst hres5
  obtain ⟨-, o6, hg6, hv6⟩ := run_command_ok_inv _ _ _ h6
  simp only [gitExec] at hg6
  obtain ⟨m6, hres6, ho6⟩ := option_map_eq_some _ _ _ hg6
  rw [hres] at hres6
  injection hres6 with hres6
  subst hres6
  have hq1m : q1 ∈ parentsAt env.commits m := mem_of_getElem? _ _ _ (by simpa using hq1)
  have hq2m : q2 ∈ parentsAt env.commits m := mem_of_getElem? _ _ _ (by simpa using hq2)
  obtain ⟨-, hstrip1, -⟩ := parent_facts env m q1 hmn hq1m
  obtain ⟨-, hstrip2, -⟩ := parent_facts env m q2 hmn hq2m
  refine ⟨m, q1, q2, hmn, hres, by simpa using hq1, by simpa using hq2, rfl,
    ?_, ?_, ?_, ?_, ?_, ?_⟩
  · rw [hv1, ho1]
  · rw [hv2, ho2]
  · rw [hv5, ho5]
  · rw [hv6, ho6]
  · rw [hv3, ← hg3, hstrip1]
  · rw [hv4, ← hg4, hstrip2]

theorem get_commit_details_inv (env : Env) (h : Str) (rec : CommitRecord)
    (hok : get_commit_details env h = .ok rec) :
    ∃ i, i < env.commits.length ∧ resolve env h = some i ∧
      rec = { hash := h,
              subject := pyStrip (dataAt env.commits i).subject,
              message := pyStrip (dataAt env.commits i).body,
              author := pyStrip (dataAt env.commits i).author,
              date := pyStrip (dataAt env.commits i).date,
              modified_files :=
                (pySplit '\n' (pyStrip (joinNl (dataAt env.commits i).files))).filter
                  (fun f => f ≠ []) } := by
  unfold get_commit_details at hok
  obtain ⟨subject, h1, hok⟩ := bind_ok_inv _ _ _ hok
  obtain ⟨message, h2, hok⟩ := bind_ok_inv _ _ _ hok
  obtain ⟨files, h3, hok⟩ := bind_ok_inv _ _ _ hok
  obtain ⟨author, h4, hok⟩ := bind_ok_inv _ _ _ hok
  obtain ⟨date, h5, hok⟩ := bind_ok_inv _ _ _ hok
  simp only [pure, Except.pure, Except.ok.injEq] at hok
  subst hok
  obtain ⟨-, o1, hg1, hv1⟩ := run_command_ok_inv _ _ _ h1
  simp only [gitExec] at hg1
  obtain ⟨i, hres, ho1⟩ := option_map_eq_some _ _ _ hg1
  have hin : i < env.commits.length := resolve_lt env h i hres
  obtain ⟨-, o2, hg2, hv2⟩ := run_command_ok_inv _ _ _ h2
  simp only [gitExec] at hg2
  obtain ⟨i2, hres2, ho2⟩ := option_map_eq_some _ _ _ hg2
  rw [hres] at hres2
  injection hres2 with hres2
  subst hres2
  obtain ⟨-, o3, hg3, hv3⟩ := run_command_ok_inv _ _ _ h3
  simp only [gitExec] at hg3
  obtain ⟨i3, hres3, ho3⟩ := option_map_eq_some _ _ _ hg3
  rw [hres] at hres3
  injection hres3 with hres3
  subst hres3
  obtain ⟨-, o4, hg4, hv4⟩ := run_command_ok_inv _ _ _ h4
  simp only [gitExec] at hg4
  obtain ⟨i4, hres4, ho4⟩ := option_map_eq_some _ _ _ hg4
  rw [hres] at hres4
  injection hres4 with hres4
  subst hres4
  obtain ⟨-, o5, hg5, hv5⟩ := run_command_ok_inv _ _ _ h5
  simp only [gitExec] at hg5
  obtain ⟨i5, hres5, ho5⟩ := option_map_eq_some _ _ _ hg5
  rw [hres] at hres5
  injection hres5 with hres5
  subst hres5
  refine ⟨i, hin, hres, ?_⟩
  rw [hv1, ho1, hv2, ho2, hv3, ho3, hv4, ho4, hv5, ho5]

theorem details_loop_spec (env : Env) :
    ∀ hs recs, details_loop env hs = .ok recs → (∀ x ∈ hs, x ≠ []) →
      recs.map (fun c => c.hash) = hs ∧
      ∀ rec ∈ recs, ∃ h, get_commit_details env h = .ok rec := by
  intro hs
  induction hs with
  | nil =>
    intro recs hok _
    simp only [details_loop, Except.ok.injEq] at hok
    subst hok
    refine ⟨rfl, ?_⟩
    intro rec hrec
    cases hrec
  | cons h rest ih =>
    intro recs hok hne
    simp only [details_loop] at hok
    rw [if_neg (hne h (by simp))] at hok
    obtain ⟨rec, hdet, hok⟩ := bind_ok_inv _ _ _ hok
    obtain ⟨rest', hrest, hok⟩ := bind_ok_inv _ _ _ hok
    simp only [pure, Except.pure, Except.ok.injEq] at hok
    subst hok
    obtain ⟨hmap, hall⟩ := ih rest' hrest (fun x hx => hne x (List.mem_cons_of_mem h hx))
    obtain ⟨i, -, -, hrec⟩ := get_commit_details_inv env h rec hdet
    constructor
    · rw [List.map_cons, hmap, hrec]
    · intro r hr
      rcases List.mem_cons.mp hr with rfl | hr
      · exact ⟨h, hdet⟩
      · exact hall r hr

end Patchsets

namespace Patchsets

theorem get_commits_in_merge_hashes (env : Env) (q1 q2 : Nat)
    (h1 : q1 < env.commits.length) (h2 : q2 < env.commits.length)
    (chs : List Str)
    (hok : get_commits_in_merge env (hashAt env.commits q1) (hashAt env.commits q2) =
      .ok chs) :
    chs = (innerAsc env.commits q1 q2).map (hashAt env.commits) := by
  unfold get_commits_in_merge at hok
  obtain ⟨v, hrc, hok⟩ := bind_ok_inv _ _ _ hok
  simp only [pure, Except.pure, Except.ok.injEq] at hok
  subst hok
  obtain ⟨-, out, hg, hv⟩ := run_command_ok_inv _ _ _ hrc
  simp only [gitExec, resolve_hash_self env q1 h1, resolve_hash_self env q2 h2] at hg
  injection hg with hg
  subst hg
  subst hv
  exact strip_split_hashes env (innerAsc env.commits q1 q2)
    (fun i hi => ((mem_innerAsc env.commits q1 q2 i).mp hi).1)

/-- Field discipline of one inner commit record of an emitted patchset:
its strings are the stripped raw git outputs for the resolved commit. -/
def CommitRecSpec (env : Env) (rec : CommitRecord) : Prop :=
  ∃ i, i < env.commits.length ∧ resolve env rec.hash = some i ∧
    rec.subject = pyStrip (dataAt env.commits i).subject ∧
    rec.message = pyStrip (dataAt env.commits i).body ∧
    rec.author = pyStrip (dataAt env.commits i).author ∧
    rec.date = pyStrip (dataAt env.commits i).date ∧
    rec.modified_files =
      (pySplit '\n' (pyStrip (joinNl (dataAt env.commits i).files))).filter
        (fun f => f ≠ [])

/-- Field discipline of one emitted patchset: merge fields are the
stripped raw outputs for the resolved merge, and the commits array is
exactly the oldest-first inner enumeration of parent1..parent2. -/
def PatchsetSpec (env : Env) (p : Patchset) : Prop :=
  ∃ m q1 q2, m < env.commits.length ∧
    resolve env p.merge_hash = some m ∧
    (parentsAt env.commits m)[0]? = some q1 ∧
    (parentsAt env.commits m)[1]? = some q2 ∧
    p.merge_subject = pyStrip (dataAt env.commits m).subject ∧
    p.merge_body = pyStrip (dataAt env.commits m).body ∧
    p.merge_author = pyStrip (dataAt env.commits m).author ∧
    p.merge_date = pyStrip (dataAt env.commits m).date ∧
    p.commits.map (fun c => c.hash) =
      (innerAsc env.commits q1 q2).map (hashAt env.commits) ∧
    ∀ rec ∈ p.commits, CommitRecSpec env rec

theorem process_loop_ok_spec (env : Env) (tf : Str) :
    ∀ hs ps lines, process_loop env tf hs = .ok (ps, lines) →
      (∀ p ∈ ps, PatchsetSpec env p) ∧
      (∀ l ∈ lines, ∃ a b, l = found_line a b) := by
  intro hs
  induction hs with
  | nil =>
    intro ps lines hok
    simp only [process_loop, Except.ok.injEq, Prod.mk.injEq] at hok
    obtain ⟨h1, h2⟩ := hok
    subst h1
    subst h2
    constructor <;> (intro x hx; cases hx)
  | cons h rest ih =>
    intro ps lines hok
    simp only [process_loop] at hok
    by_cases hhe : h = []
    · rw [if_pos hhe] at hok
      exact ih ps lines hok
    · rw [if_neg hhe] at hok
      obtain ⟨md, hdet, hok⟩ := bind_ok_inv _ _ _ hok
      obtain ⟨nested, hcm, hok⟩ := bind_ok_inv _ _ _ hok
      cases nested with
      | true =>
        rw [if_pos rfl] at hok
        exact ih ps lines hok
      | false =>
        rw [if_neg (by simp)] at hok
        by_cases htag : containsSub (chars "Merge tag") md.subject = true
        · rw [if_pos htag] at hok
          exact ih ps lines hok
        · rw [if_neg htag] at hok
          obtain ⟨affects, haf, hok⟩ := bind_ok_inv _ _ _ hok
          cases affects with
          | false =>
            rw [if_neg (by simp)] at hok
            exact ih ps lines hok
          | true =>
            rw [if_pos rfl] at hok
            obtain ⟨chs, hch, hok⟩ := bind_ok_inv _ _ _ hok
            obtain ⟨cds, hcd, hok⟩ := bind_ok_inv _ _ _ hok
            obtain ⟨pr, hpr, hok⟩ := bind_ok_inv _ _ _ hok
            rcases pr with ⟨restPs, restLines⟩
            simp only [pure, Except.pure, Except.ok.injEq, Prod.mk.injEq] at hok
            obtain ⟨hps, hlines⟩ := hok
            subst hps
            subst hlines
            obtain ⟨ihp, ihl⟩ := ih restPs restLines hpr
            obtain ⟨m, q1, q2, hmn, hres, hq1, hq2, hhash, hsub, hbody, hauth, hdate,
              hpar1, hpar2⟩ := get_merge_details_inv env h md hdet
            have hq1m : q1 < env.commits.length :=
              (parent_facts env m q1 hmn (mem_of_getElem? _ _ _ hq1)).1
            have hq2m : q2 < env.commits.length :=
              (parent_facts env m q2 hmn (mem_of_getElem? _ _ _ hq2)).1
            rw [hpar1, hpar2] at hch
            have hchs := get_commits_in_merge_hashes env q1 q2 hq1m hq2m chs hch
            subst hchs
            have hne : ∀ x ∈ (innerAsc env.commits q1 q2).map (hashAt env.commits),
                x ≠ [] :=
              fun x hx => (hash_lines_ok env _
                (fun i hi => ((mem_innerAsc env.commits q1 q2 i).mp hi).1) x hx).1
            obtain ⟨hmapcds, hallcds⟩ := details_loop_spec env _ cds hcd hne
            constructor
            · intro p hp
              rcases List.mem_cons.mp hp with rfl | hp
              · refine ⟨m, q1, q2, hmn, hres, hq1, hq2, hsub, hbody, hauth, hdate,
                  hmapcds, ?_⟩
                intro rec hrec
                obtain ⟨h', hdet'⟩ := hallcds rec hrec
                obtain ⟨i, hin, hres', hreceq⟩ := get_commit_details_inv env h' rec hdet'
                subst hreceq
                exact ⟨i, hin, hres', rfl, rfl, rfl, rfl, rfl⟩
              · exact ihp p hp
            · intro l hl
              rcases List.mem_cons.mp hl with rfl | hl
              · exact ⟨h, md.subject, rfl⟩
              · exact ihl l hl

theorem process_loop_excludes (env : Env) (tf : Str) (m : Nat)
    (hskip : ∀ md, get_merge_details env (hashAt env.commits m) = .ok md →
      (∀ b, check_merge_contains_merges env md.parent1 md.parent2 = .ok b → b = true) ∨
      containsSub (chars "Merge tag") md.subject = true ∨
      (∀ b, check_merge_affects_verifier env md.parent1 md.parent2 tf = .ok b →
        b = false)) :
    ∀ hs ps lines, process_loop env tf hs = .ok (ps, lines) →
      hashAt env.commits m ∉ ps.map (fun p => p.merge_hash) := by
  intro hs
  induction hs with
  | nil =>
    intro ps lines hok
    simp only [process_loop, Except.ok.injEq, Prod.mk.injEq] at hok
    rw [← hok.1]
    simp
  | cons h rest ih =>
    intro ps lines hok
    simp only [process_loop] at hok
    by_cases hhe : h = []
    · rw [if_pos hhe] at hok
      exact ih ps lines hok
    · rw [if_neg hhe] at hok
      obtain ⟨md, hdet, hok⟩ := bind_ok_inv _ _ _ hok
      obtain ⟨nested, hcm, hok⟩ := bind_ok_inv _ _ _ hok
      cases nested with
      | true =>
        rw [if_pos rfl] at hok
        exact ih ps lines hok
      | false =>
        rw [if_neg (by simp)] at hok
        by_cases htag : containsSub (chars "Merge tag") md.subject = true
        · rw [if_pos htag] at hok
          exact ih ps lines hok
        · rw [if_neg htag] at hok
          obtain ⟨affects, haf, hok⟩ := bind_ok_inv _ _ _ hok
          cases affects with
          | false =>
            rw [if_neg (by simp)] at hok
            exact ih ps lines hok
          | true =>
            rw [if_pos rfl] at hok
            obtain ⟨chs, hch, hok⟩ := bind_ok_inv _ _ _ hok
            obtain ⟨cds, hcd, hok⟩ := bind_ok_inv _ _ _ hok
            obtain ⟨pr, hpr, hok⟩ := bind_ok_inv _ _ _ hok
            rcases pr with ⟨restPs, restLines⟩
            simp only [pure, Except.pure, Except.ok.injEq, Prod.mk.injEq] at hok
            obtain ⟨hps, hlines⟩ := hok
            subst hps
            subst hlines
            intro hmem
            rw [List.map_cons] at hmem
            rcases List.mem_cons.mp hmem with heq | hmem
            · have heq' : hashAt env.commits m = h := heq
              rw [← heq'] at hdet
              rcases hskip md hdet with hn | ht | ha
              · cases hn false hcm
              · exact htag ht
              · cases ha true haf
            · exact ih restPs restLines hpr hmem

theorem patchsets_stdout_inv (env : Env) (s e : Str) (r : Report)
    (hr : r ∈ (main env s e).stdout) :
    ∃ hs ps lines, process_loop env target_file hs = .ok (ps, lines) ∧
      r = { target_file := target_file, start_ref := s, end_ref := e,
            patchset_count := ps.length, patchsets := ps } := by
  unfold main at hr
  split at hr
  · exact absurd hr (by simp)
  · split at hr
    · exact absurd hr (by simp)
    · exact absurd hr (by simp)
    · split at hr
      · exact absurd hr (by simp)
      · exact absurd hr (by simp)
      · rename_i heq
        obtain ⟨mc, hgm, hproc⟩ := bind_ok_inv _ _ _ heq
        rw [List.mem_singleton] at hr
        exact ⟨mc, _, _, hproc, hr⟩

end Patchsets

namespace Commits

theorem commits_details_inv (env : Env) (h : Str) (rec : CommitRecord)
    (hok : get_commit_details env h = .ok rec) :
    ∃ i, i < env.commits.length ∧ resolve env h = some i ∧
      rec = { hash := h,
              author := pyStrip (dataAt env.commits i).author,
              date := pyStrip (dataAt env.commits i).date,
              message := pyStrip (dataAt env.commits i).messageB,
              modified_files :=
                (pySplit '\n' (pyStrip (joinNl (dataAt env.commits i).files))).filter
                  (fun f => f ≠ []) } := by
  unfold get_commit_details at hok
  obtain ⟨message, h1, hok⟩ := bind_ok_inv _ _ _ hok
  obtain ⟨files, h2, hok⟩ := bind_ok_inv _ _ _ hok
  obtain ⟨author, h3, hok⟩ := bind_ok_inv _ _ _ hok
  obtain ⟨date, h4, hok⟩ := bind_ok_inv _ _ _ hok
  simp only [pure, Except.pure, Except.ok.injEq] at hok
  subst hok
  obtain ⟨-, o1, hg1, hv1⟩ := run_command_ok_inv _ _ _ h1
  simp only [gitExec] at hg1
  obtain ⟨i, hres, ho1⟩ := option_map_eq_some _ _ _ hg1
  have hin : i < env.commits.length := resolve_lt env h i hres
  obtain ⟨-, o2, hg2, hv2⟩ := run_command_ok_inv _ _ _ h2
  simp only [gitExec] at hg2
  obtain ⟨i2, hres2, ho2⟩ := option_map_eq_some _ _ _ hg2
  rw [hres] at hres2
  injection hres2 with hres2
  subst hres2
  obtain ⟨-, o3, hg3, hv3⟩ := run_command_ok_inv _ _ _ h3
  simp only [gitExec] at hg3
  obtain ⟨i3, hres3, ho3⟩ := option_map_eq_some _ _ _ hg3
  rw [hres] at hres3
  injection hres3 with hres3
  subst hres3
  obtain ⟨-, o4, hg4, hv4⟩ := run_command_ok_inv _ _ _ h4
  simp only [gitExec] at hg4
  obtain ⟨i4, hres4, ho4⟩ := option_map_eq_some _ _ _ hg4
  rw [hres] at hres4
  injection hres4 with hres4
  subst hres4
  refine ⟨i, hin, hres, ?_⟩
  rw [hv1, ho1, hv2, ho2, hv3, ho3, hv4, ho4]

theorem details_loop_records (env : Env) :
    ∀ hs recs, details_loop env hs = .ok recs →
      ∀ rec ∈ recs, ∃ h, get_commit_details env h = .ok rec := by
  intro hs
  induction hs with
  | nil =>
    intro recs hok rec hrec
    simp only [details_loop, Except.ok.injEq] at hok
    subst hok
    cases hrec
  | cons h rest ih =>
    intro recs hok rec hrec
    simp only [details_loop] at hok
    by_cases hhe : h = []
    · rw [if_pos hhe] at hok
      exact ih recs hok rec hrec
    · rw [if_neg hhe] at hok
      obtain ⟨r0, hdet, hok⟩ := bind_ok_inv _ _ _ hok
      obtain ⟨rest', hrest, hok⟩ := bind_ok_inv _ _ _ hok
      simp only [pure, Except.pure, Except.ok.injEq] at hok
      subst hok
      rcases List.mem_cons.mp hrec with rfl | hrec
      · exact ⟨h, hdet⟩
      · exact ih rest' hrest rec hrec

theorem commits_stdout_inv (env : Env) (s e : Str) (r : Report)
    (hr : r ∈ (main env s e).stdout) :
    ∃ hs recs, details_loop env hs = .ok recs ∧
      r = { target_file := target_file, start_ref := s, end_ref := e,
            commit_count := recs.length, commits := recs } := by
  unfold main at hr
  split at hr
  · exact absurd hr (by simp)
  · split at hr
    · exact absurd hr (by simp)
    · exact absurd hr (by simp)
    · split at hr
      · exact absurd hr (by simp)
      · exact absurd hr (by simp)
      · rename_i heq
        obtain ⟨mc, hgm, hproc⟩ := bind_ok_inv _ _ _ heq
        rw [List.mem_singleton] at hr
        exact ⟨mc, _, hproc, hr⟩

end Commits

/-- The stripped oneline listing of an enumeration with at least one
in-range member is nonempty (a hash character survives the strip). -/
theorem pyStrip_oneline_ne_nil (env : Env) (is : List Nat) (j : Nat)
    (hj : j ∈ is) (hjn : j < env.commits.length) :
    pyStrip (joinNl (is.map (onelineOf env.commits))) ≠ [] := by
  intro hcontra
  rw [pyStrip_eq_nil_iff] at hcontra
  obtain ⟨hne, hnw⟩ := env_hash env j hjn
  rcases hh : hashAt env.commits j with _ | ⟨c, t⟩
  · exact hne hh
  · have hcin : c ∈ onelineOf env.commits j := by
      unfold onelineOf
      rw [hh]
      simp
    have hcw : c.isWhitespace = false := hnw c (by rw [hh]; simp)
    have := hcontra c (mem_joinNl_of_mem _ _ _ (List.mem_map.mpr ⟨j, hj, rfl⟩) hcin)
    rw [this] at hcw
    cases hcw

namespace Patchsets

theorem check_contains_inv (env : Env) (p1 p2 : Nat)
    (h1 : p1 < env.commits.length) (h2 : p2 < env.commits.length) (b : Bool)
    (hok : check_merge_contains_merges env (hashAt env.commits p1)
      (hashAt env.commits p2) = .ok b) :
    b = decide (pyStrip (joinNl ((mergesQuery env.commits p1 p2).map
      (onelineOf env.commits))) ≠ []) := by
  unfold check_merge_contains_merges at hok
  obtain ⟨v, hrc, hok⟩ := bind_ok_inv _ _ _ hok
  simp only [pure, Except.pure, Except.ok.injEq] at hok
  obtain ⟨-, out, hg, hv⟩ := run_command_ok_inv _ _ _ hrc
  simp only [gitExec, resolve_hash_self env p1 h1, resolve_hash_self env p2 h2] at hg
  injection hg with hg
  subst hg
  subst hv
  rw [← hok]

theorem check_affects_inv (env : Env) (p1 p2 : Nat) (tf : Str)
    (h1 : p1 < env.commits.length) (h2 : p2 < env.commits.length) (b : Bool)
    (hok : check_merge_affects_verifier env (hashAt env.commits p1)
      (hashAt env.commits p2) tf = .ok b) :
    b = decide (pyStrip (joinNl ((affectsQuery env.commits p1 p2 tf).map
      (onelineOf env.commits))) ≠ []) := by
  unfold check_merge_affects_verifier at hok
  obtain ⟨v, hrc, hok⟩ := bind_ok_inv _ _ _ hok
  simp only [pure, Except.pure, Except.ok.injEq] at hok
  obtain ⟨-, out, hg, hv⟩ := run_command_ok_inv _ _ _ hrc
  simp only [gitExec, resolve_hash_self env p1 h1, resolve_hash_self env p2 h2] at hg
  injection hg with hg
  subst hg
  subst hv
  rw [← hok]

end Patchsets

/-! Concrete environments for the Patchset Reporter witnesses. -/

/-- Concrete repository with one flat merge that brings in a commit
touching the target file. -/
def envP : Env :=
  { commits :=
      [ { hash := chars "b0", parents := [], subject := chars "init",
          body := chars "", messageB := chars "init", author := chars "Ann <a@x>",
          date := chars "2024-01-01 00:00:00 +0000", files := [chars "README"] },
        { hash := chars "b1", parents := [0], subject := chars "bpf: add check",
          body := chars "adds a check",
          messageB := chars "bpf: add check\n\nadds a check\n",
          author := chars "Bob <b@x>", date := chars "2024-01-02 00:00:00 +0000",
          files := [chars "kernel/bpf/verifier.c"] },
        { hash := chars "b2", parents := [0, 1], subject := chars "Merge branch bpf-fixes",
          body := chars "pull bpf fixes",
          messageB := chars "Merge branch bpf-fixes\n\npull bpf fixes\n",
          author := chars "Mia <m@x>", date := chars "2024-01-03 00:00:00 +0000",
          files := [] } ],
    refs := [],
    inRepo := true,
    failCmd := fun _ => false,
    errDetails := fun _ => [],
    hwf := by decide }

/-- Concrete repository where the top merge aggregates another merge. -/
def envN : Env :=
  { commits :=
      [ { hash := chars "c0", parents := [], subject := chars "init",
          body := chars "", messageB := chars "init", author := chars "Ann <a@x>",
          date := chars "2024-01-01 00:00:00 +0000", files := [chars "README"] },
        { hash := chars "c1", parents := [0], subject := chars "bpf: tweak",
          body := chars "", messageB := chars "bpf: tweak",
          author := chars "Bob <b@x>", date := chars "2024-01-02 00:00:00 +0000",
          files := [chars "kernel/bpf/verifier.c"] },
        { hash := chars "c2", parents := [0, 1], subject := chars "Merge branch bpf",
          body := chars "", messageB := chars "Merge branch bpf",
          author := chars "Mia <m@x>", date := chars "2024-01-03 00:00:00 +0000",
          files := [] },
        { hash := chars "c3", parents := [0], subject := chars "docs: update",
          body := chars "", messageB := chars "docs: update",
          author := chars "Ann <a@x>", date := chars "2024-01-04 00:00:00 +0000",
          files := [chars "README"] },
        { hash := chars "c4", parents := [3, 2], subject := chars "Merge branch net-next",
          body := chars "", messageB := chars "Merge branch net-next",
          author := chars "Mia <m@x>", date := chars "2024-01-05 00:00:00 +0000",
          files := [] } ],
    refs := [],
    inRepo := true,
    failCmd := fun _ => false,
    errDetails := fun _ => [],
    hwf := by decide }

/-- Concrete repository whose only merge is a tag merge touching the
target file. -/
def envT : Env :=
  { commits :=
      [ { hash := chars "d0", parents := [], subject := chars "init",
          body := chars "", messageB := chars "init", author := chars "Ann <a@x>",
          date := chars "2024-01-01 00:00:00 +0000", files := [chars "README"] },
        { hash := chars "d1", parents := [0], subject := chars "bpf: adjust",
          body := chars "", messageB := chars "bpf: adjust",
          author := chars "Bob <b@x>", date := chars "2024-01-02 00:00:00 +0000",
          files := [chars "kernel/bpf/verifier.c"] },
        { hash := chars "d2", parents := [0, 1], subject := chars "Merge tag v1 of bpf tree",
          body := chars "", messageB := chars "Merge tag v1 of bpf tree",
          author := chars "Mia <m@x>", date := chars "2024-01-03 00:00:00 +0000",
          files := [] } ],
    refs := [],
    inRepo := true,
    failCmd := fun _ => false,
    errDetails := fun _ => [],
    hwf := by decide }

/-- Concrete repository whose only merge brings in nothing touching the
target file. -/
def envF : Env :=
  { commits :=
      [ { hash := chars "e0", parents := [], subject := chars "init",
          body := chars "", messageB := chars "init", author := chars "Ann <a@x>",
          date := chars "2024-01-01 00:00:00 +0000", files := [chars "README"] },
        { hash := chars "e1", parents := [0], subject := chars "net: adjust",
          body := chars "", messageB := chars "net: adjust",
          author := chars "Bob <b@x>", date := chars "2024-01-02 00:00:00 +0000",
          files := [chars "net/socket.c"] },
        { hash := chars "e2", parents := [0, 1], subject := chars "Merge branch net",
          body := chars "", messageB := chars "Merge branch net",
          author := chars "Mia <m@x>", date := chars "2024-01-03 00:00:00 +0000",
          files := [] } ],
    refs := [],
    inRepo := true,
    failCmd := fun _ => false,
    errDetails := fun _ => [],
    hwf := by decide }

/-- Claim C4: a merge whose parent1..parent2 range contains another
merge commit never appears in the patchsets array, whatever its subject
or relevance. -/
theorem C4_nested_merge_excluded (env : Env) (s e : Str) (m p1 p2 j : Nat)
    (hm : m < env.commits.length)
    (hp1 : (parentsAt env.commits m)[0]? = some p1)
    (hp2 : (parentsAt env.commits m)[1]? = some p2)
    (hj1 : reach env.commits p2 j = true)
    (hj2 : reach env.commits p1 j = false)
    (hjm : isMerge env.commits j = true) :
    ∀ r ∈ (Patchsets.main env s e).stdout,
      hashAt env.commits m ∉ r.patchsets.map (fun p => p.merge_hash) := by
  intro r hr
  obtain ⟨hs, ps, lines, hproc, hrep⟩ := Patchsets.patchsets_stdout_inv env s e r hr
  have hskip : ∀ md, Patchsets.get_merge_details env (hashAt env.commits m) = .ok md →
      (∀ b, Patchsets.check_merge_contains_merges env md.parent1 md.parent2 = .ok b →
        b = true) ∨
      containsSub (chars "Merge tag") md.subject = true ∨
      (∀ b, Patchsets.check_merge_affects_verifier env md.parent1 md.parent2
        Patchsets.target_file = .ok b → b = false) := by
    intro md hdet
    obtain ⟨m', q1, q2, hmn', hres, hq1, hq2, hhash, hsub, hbody, hauth, hdate,
      hpar1, hpar2⟩ := Patchsets.get_merge_details_inv env _ md hdet
    have hm' : m' = m := by
      have hself := resolve_hash_self env m hm
      rw [hself] at hres
      injection hres with hres
      exact hres.symm
    rw [hm'] at hq1 hq2 hsub hbody hauth hdate
    rw [hp1] at hq1
    injection hq1 with hq1
    subst hq1
    rw [hp2] at hq2
    injection hq2 with hq2
    subst hq2
    left
    intro b hb
    rw [hpar1, hpar2] at hb
    have hp1n : p1 < env.commits.length :=
      (parent_facts env m p1 hm (mem_of_getElem? _ _ _ hp1)).1
    have hp2n : p2 < env.commits.length :=
      (parent_facts env m p2 hm (mem_of_getElem? _ _ _ hp2)).1
    have hbv := Patchsets.check_contains_inv env p1 p2 hp1n hp2n b hb
    have hjn : j < env.commits.length := by
      have hrj := (reach_iff env.commits (env_par env) p2 j).mp hj1
      have := reaches_le env.commits (env_par env) hrj
      omega
    have hjmem : j ∈ mergesQuery env.commits p1 p2 :=
      (mem_mergesQuery env.commits p1 p2 j).mpr ⟨hjn, hj1, hj2, hjm⟩
    have hne := pyStrip_oneline_ne_nil env (mergesQuery env.commits p1 p2) j hjmem hjn
    rw [hbv]
    simpa using hne
  have hnot := Patchsets.process_loop_excludes env Patchsets.target_file m hskip
    hs ps lines hproc
  rw [hrep]
  exact hnot

/-- Witness for C4: in envN, the merge c4 aggregates the merge c2 and is
absent from the report even though its range touches the target file. -/
theorem C4_witness :
    4 < envN.commits.length ∧
    (parentsAt envN.commits 4)[0]? = some 3 ∧
    (parentsAt envN.commits 4)[1]? = some 2 ∧
    reach envN.commits 2 2 = true ∧
    reach envN.commits 3 2 = false ∧
    isMerge envN.commits 2 = true ∧
    (((Patchsets.main envN (chars "c3") (chars "c4")).stdout).headD default ∈
      (Patchsets.main envN (chars "c3") (chars "c4")).stdout) ∧
    hashAt envN.commits 4 ∉
      ((((Patchsets.main envN (chars "c3") (chars "c4")).stdout).headD
        default).patchsets.map (fun p => p.merge_hash)) :=
  ⟨by decide, by decide, by decide, by decide, by decide, by decide, by decide,
   C4_nested_merge_excluded envN (chars "c3") (chars "c4") 4 3 2 2 (by decide)
     (by decide) (by decide) (by decide) (by decide) (by decide) _ (by decide)⟩

/-- Claim C5: a merge whose raw subject line contains the substring
Merge tag anywhere never appears in the patchsets array. -/
theorem C5_tag_merge_excluded (env : Env) (s e : Str) (m : Nat)
    (hm : m < env.commits.length)
    (htag : containsSub (chars "Merge tag") (dataAt env.commits m).subject = true) :
    ∀ r ∈ (Patchsets.main env s e).stdout,
      hashAt env.commits m ∉ r.patchsets.map (fun p => p.merge_hash) := by
  intro r hr
  obtain ⟨hs, ps, lines, hproc, hrep⟩ := Patchsets.patchsets_stdout_inv env s e r hr
  have hskip : ∀ md, Patchsets.get_merge_details env (hashAt env.commits m) = .ok md →
      (∀ b, Patchsets.check_merge_contains_merges env md.parent1 md.parent2 = .ok b →
        b = true) ∨
      containsSub (chars "Merge tag") md.subject = true ∨
      (∀ b, Patchsets.check_merge_affects_verifier env md.parent1 md.parent2
        Patchsets.target_file = .ok b → b = false) := by
    intro md hdet
    obtain ⟨m', q1, q2, hmn', hres, hq1, hq2, hhash, hsub, hbody, hauth, hdate,
      hpar1, hpar2⟩ := Patchsets.get_merge_details_inv env _ md hdet
    have hm' : m' = m := by
      have hself := resolve_hash_self env m hm
      rw [hself] at hres
      injection hres with hres
      exact hres.symm
    rw [hm'] at hq1 hq2 hsub hbody hauth hdate
    right
    left
    rw [hsub]
    exact containsSub_pyStrip (chars "Merge tag") (dataAt env.commits m).subject
      'M' 'g' (by decide) (by decide) (by decide) (by decide) htag
  have hnot := Patchsets.process_loop_excludes env Patchsets.target_file m hskip
    hs ps lines hproc
  rw [hrep]
  exact hnot

/-- Witness for C5: in envT the tag merge d2 touches the target file via
its range yet is excluded. -/
theorem C5_witness :
    2 < envT.commits.length ∧
    containsSub (chars "Merge tag") (dataAt envT.commits 2).subject = true ∧
    (((Patchsets.main envT (chars "d1") (chars "d2")).stdout).headD default ∈
      (Patchsets.main envT (chars "d1") (chars "d2")).stdout) ∧
    hashAt envT.commits 2 ∉
      ((((Patchsets.main envT (chars "d1") (chars "d2")).stdout).headD
        default).patchsets.map (fun p => p.merge_hash)) :=
  ⟨by decide, by decide, by decide,
   C5_tag_merge_excluded envT (chars "d1") (chars "d2") 2 (by decide) (by decide) _
     (by decide)⟩

/-- Claim C6: a merge whose parent1..parent2 range holds no commit
touching the target file never appears in the patchsets array. -/
theorem C6_irrelevant_merge_excluded (env : Env) (s e : Str) (m p1 p2 : Nat)
    (hm : m < env.commits.length)
    (hp1 : (parentsAt env.commits m)[0]? = some p1)
    (hp2 : (parentsAt env.commits m)[1]? = some p2)
    (hnt : ∀ i ∈ List.range env.commits.length,
      reach env.commits p2 i = true → reach env.commits p1 i = false →
      touches env.commits i Patchsets.target_file = false) :
    ∀ r ∈ (Patchsets.main env s e).stdout,
      hashAt env.commits m ∉ r.patchsets.map (fun p => p.merge_hash) := by
  intro r hr
  obtain ⟨hs, ps, lines, hproc, hrep⟩ := Patchsets.patchsets_stdout_inv env s e r hr
  have hskip : ∀ md, Patchsets.get_merge_details env (hashAt env.commits m) = .ok md →
      (∀ b, Patchsets.check_merge_contains_merges env md.parent1 md.parent2 = .ok b →
        b = true) ∨
      containsSub (chars "Merge tag") md.subject = true ∨
      (∀ b, Patchsets.check_merge_affects_verifier env md.parent1 md.parent2
        Patchsets.target_file = .ok b → b = false) := by
    intro md hdet
    obtain ⟨m', q1, q2, hmn', hres, hq1, hq2, hhash, hsub, hbody, hauth, hdate,
      hpar1, hpar2⟩ := Patchsets.get_merge_details_inv env _ md hdet
    have hm' : m' = m := by
      have hself := resolve_hash_self env m hm
      rw [hself] at hres
      injection hres with hres
      exact hres.symm
    rw [hm'] at hq1 hq2 hsub hbody hauth hdate
    rw [hp1] at hq1
    injection hq1 with hq1
    subst hq1
    rw [hp2] at hq2
    injection hq2 with hq2
    subst hq2
    right
    right
    intro b hb
    rw [hpar1, hpar2] at hb
    have hp1n : p1 < env.commits.length :=
      (parent_facts env m p1 hm (mem_of_getElem? _ _ _ hp1)).1
    have hp2n : p2 < env.commits.length :=
      (parent_facts env m p2 hm (mem_of_getElem? _ _ _ hp2)).1
    have hbv := Patchsets.check_affects_inv env p1 p2 Patchsets.target_file
      hp1n hp2n b hb
    have hq : affectsQuery env.commits p1 p2 Patchsets.target_file = [] := by
      rw [List.eq_nil_iff_forall_not_mem]
      intro i hi
      obtain ⟨hlt, hb2, ha2, ht2⟩ :=
        (mem_affectsQuery env.commits p1 p2 i Patchsets.target_file).mp hi
      have := hnt i (List.mem_range.mpr hlt) hb2 ha2
      rw [ht2] at this
      cases this
    rw [hbv, hq]
    simp [joinNl, pyStrip_nil]
  have hnot := Patchsets.process_loop_excludes env Patchsets.target_file m hskip
    hs ps lines hproc
  rw [hrep]
  exact hnot

/-- Witness for C6: in envF the flat merge e2 brings in nothing touching
the target file and is excluded. -/
theorem C6_witness :
    2 < envF.commits.length ∧
    (parentsAt envF.commits 2)[0]? = some 0 ∧
    (parentsAt envF.commits 2)[1]? = some 1 ∧
    (∀ i ∈ List.range envF.commits.length,
      reach envF.commits 1 i = true → reach envF.commits 0 i = false →
      touches envF.commits i Patchsets.target_file = false) ∧
    (((Patchsets.main envF (chars "e1") (chars "e2")).stdout).headD default ∈
      (Patchsets.main envF (chars "e1") (chars "e2")).stdout) ∧
    hashAt envF.commits 2 ∉
      ((((Patchsets.main envF (chars "e1") (chars "e2")).stdout).headD
        default).patchsets.map (fun p => p.merge_hash)) :=
  ⟨by decide, by decide, by decide, by decide, by decide,
   C6_irrelevant_merge_excluded envF (chars "e1") (chars "e2") 2 0 1 (by decide)
     (by decide) (by decide) (by decide) _ (by decide)⟩

/-- The oldest-first inner enumeration is strictly increasing in
chronological index. -/
theorem innerAsc_pairwise (cs : List CommitData) (a b : Nat) :
    (innerAsc cs a b).Pairwise (fun x y => x < y) := by
  unfold innerAsc rangeDesc
  rw [← List.filter_reverse, List.reverse_reverse]
  exact List.Pairwise.filter _ (List.Pairwise.filter _ (List.pairwise_lt_range cs.length))

/-- Claim C7: every patchset of the report lists exactly the non-merge
commits reachable from parent2 and not from parent1, oldest first, the
literal reverse of the newest-first enumeration order. -/
theorem C7_patchset_commit_list (env : Env) (s e : Str) :
    ∀ r ∈ (Patchsets.main env s e).stdout, ∀ p ∈ r.patchsets,
      ∃ m q1 q2, m < env.commits.length ∧
        resolve env p.merge_hash = some m ∧
        (parentsAt env.commits m)[0]? = some q1 ∧
        (parentsAt env.commits m)[1]? = some q2 ∧
        p.commits.map (fun c => c.hash) =
          (innerAsc env.commits q1 q2).map (hashAt env.commits) ∧
        (innerAsc env.commits q1 q2).Pairwise (fun x y => x < y) ∧
        innerAsc env.commits q1 q2 =
          ((rangeDesc env.commits q1 q2).filter
            (fun i => !isMerge env.commits i)).reverse ∧
        (∀ i, i ∈ innerAsc env.commits q1 q2 ↔
          (i < env.commits.length ∧ Reaches env.commits q2 i ∧
            ¬ Reaches env.commits q1 i ∧ isMerge env.commits i = false)) := by
  intro r hr p hp
  obtain ⟨hs, ps, lines, hproc, hrep⟩ := Patchsets.patchsets_stdout_inv env s e r hr
  subst hrep
  obtain ⟨hall, -⟩ := Patchsets.process_loop_ok_spec env Patchsets.target_file
    hs ps lines hproc
  obtain ⟨m, q1, q2, hmn, hres, hq1, hq2, -, -, -, -, hmap, -⟩ := hall p hp
  refine ⟨m, q1, q2, hmn, hres, hq1, hq2, hmap, innerAsc_pairwise env.commits q1 q2,
    rfl, ?_⟩
  intro i
  rw [mem_innerAsc]
  constructor
  · rintro ⟨hlt, hb, ha, hme⟩
    refine ⟨hlt, (reach_iff env.commits (env_par env) q2 i).mp hb, ?_, hme⟩
    intro hcontra
    have := (reach_iff env.commits (env_par env) q1 i).mpr hcontra
    rw [ha] at this
    cases this
  · rintro ⟨hlt, hb, ha, hme⟩
    refine ⟨hlt, (reach_iff env.commits (env_par env) q2 i).mpr hb, ?_, hme⟩
    rcases hcontra : reach env.commits q1 i with _ | _
    · rfl
    · exact absurd ((reach_iff env.commits (env_par env) q1 i).mp hcontra) ha

/-- First report printed by the patchsets run over envP, for witnesses. -/
def reportP : Patchsets.Report :=
  ((Patchsets.main envP (chars "b1") (chars "b2")).stdout).headD default

/-- First patchset of that report, for witnesses. -/
def patchP : Patchsets.Patchset := reportP.patchsets.headD default

/-- Witness for C7: the single patchset of the envP run satisfies the
content and ordering characterisation. -/
theorem C7_witness :
    reportP ∈ (Patchsets.main envP (chars "b1") (chars "b2")).stdout ∧
    patchP ∈ reportP.patchsets ∧
    ∃ m q1 q2, m < envP.commits.length ∧
      resolve envP patchP.merge_hash = some m ∧
      (parentsAt envP.commits m)[0]? = some q1 ∧
      (parentsAt envP.commits m)[1]? = some q2 ∧
      patchP.commits.map (fun c => c.hash) =
        (innerAsc envP.commits q1 q2).map (hashAt envP.commits) ∧
      (innerAsc envP.commits q1 q2).Pairwise (fun x y => x < y) ∧
      innerAsc envP.commits q1 q2 =
        ((rangeDesc envP.commits q1 q2).filter
          (fun i => !isMerge envP.commits i)).reverse ∧
      (∀ i, i ∈ innerAsc envP.commits q1 q2 ↔
        (i < envP.commits.length ∧ Reaches envP.commits q2 i ∧
          ¬ Reaches envP.commits q1 i ∧ isMerge envP.commits i = false)) :=
  ⟨by decide, by decide,
   C7_patchset_commit_list envP (chars "b1") (chars "b2") reportP (by decide)
     patchP (by decide)⟩

/-- Claim C2: in every emitted report the metadata count equals the
length of the corresponding collection, for both tools. -/
theorem C2_count_equals_length (env : Env) (s e : Str) :
    (∀ r ∈ (Commits.main env s e).stdout, r.commit_count = r.commits.length) ∧
    (∀ r ∈ (Patchsets.main env s e).stdout, r.patchset_count = r.patchsets.length) := by
  constructor
  · intro r hr
    obtain ⟨hs, recs, -, hrep⟩ := Commits.commits_stdout_inv env s e r hr
    rw [hrep]
  · intro r hr
    obtain ⟨hs, ps, lines, -, hrep⟩ := Patchsets.patchsets_stdout_inv env s e r hr
    rw [hrep]

/-- First report printed by the commits run over envC, for witnesses. -/
def reportC : Commits.Report :=
  ((Commits.main envC (chars "a1") (chars "a1")).stdout).headD default

/-- Witness for C2: both concrete runs satisfy the count invariant. -/
theorem C2_witness :
    (reportC ∈ (Commits.main envC (chars "a1") (chars "a1")).stdout ∧
      reportC.commit_count = reportC.commits.length) ∧
    (reportP ∈ (Patchsets.main envP (chars "b1") (chars "b2")).stdout ∧
      reportP.patchset_count = reportP.patchsets.length) :=
  ⟨⟨by decide,
    (C2_count_equals_length envC (chars "a1") (chars "a1")).1 reportC (by decide)⟩,
   ⟨by decide,
    (C2_count_equals_length envP (chars "b1") (chars "b2")).2 reportP (by decide)⟩⟩

/-- Claim C8: each run either succeeds with exit 0 and exactly one
document on stdout, or fails with exit 1 and an empty stdout; no failure
path writes to stdout. -/
theorem C8_stdout_discipline (env : Env) (s e : Str) :
    (((Commits.main env s e).exitCode = 0 ∧
        ∃ r, (Commits.main env s e).stdout = [r]) ∨
      ((Commits.main env s e).exitCode = 1 ∧ (Commits.main env s e).stdout = [])) ∧
    (((Patchsets.main env s e).exitCode = 0 ∧
        ∃ r, (Patchsets.main env s e).stdout = [r]) ∨
      ((Patchsets.main env s e).exitCode = 1 ∧
        (Patchsets.main env s e).stdout = [])) := by
  constructor
  · unfold Commits.main
    split
    · exact Or.inr ⟨rfl, rfl⟩
    · split
      · exact Or.inr ⟨rfl, rfl⟩
      · exact Or.inr ⟨rfl, rfl⟩
      · split
        · exact Or.inr ⟨rfl, rfl⟩
        · exact Or.inr ⟨rfl, rfl⟩
        · exact Or.inl ⟨rfl, _, rfl⟩
  · unfold Patchsets.main
    split
    · exact Or.inr ⟨rfl, rfl⟩
    · split
      · exact Or.inr ⟨rfl, rfl⟩
      · exact Or.inr ⟨rfl, rfl⟩
      · split
        · exact Or.inr ⟨rfl, rfl⟩
        · exact Or.inr ⟨rfl, rfl⟩
        · exact Or.inl ⟨rfl, _, rfl⟩

/-! Every exception raised anywhere in either script is a SystemExit
carrying the two run_command diagnostic lines; the CalledProcessError
handler around the rev-parse validation can therefore never fire. -/

/-- Shape of every exception the embedded scripts can raise. -/
def ExnShape (env : Env) (x : Exn) : Prop :=
  ∃ c, x = .systemExit [errLine1 c, errLine2 env c]

theorem run_command_error_shape (env : Env) (cmd : GitCmd) (x : Exn)
    (h : run_command env cmd = .error x) : ExnShape env x :=
  ⟨cmd, run_command_error_inv env cmd x h⟩

theorem shape_bind {α β : Type} (env : Env) (x : Except Exn α) (f : α → Except Exn β)
    (hx : ∀ ex, x = .error ex → ExnShape env ex)
    (hf : ∀ a ex, f a = .error ex → ExnShape env ex) :
    ∀ ex, (x >>= f) = .error ex → ExnShape env ex := by
  intro ex h
  rcases bind_error_inv _ _ _ h with h1 | ⟨a, -, h2⟩
  · exact hx ex h1
  · exact hf a ex h2

theorem shape_pure {α : Type} (env : Env) (a : α) :
    ∀ ex, (pure a : Except Exn α) = .error ex → ExnShape env ex := by
  intro ex h
  simp only [pure, Except.pure] at h
  exact Except.noConfusion h

namespace Commits

theorem get_commits_between_refs_error_shape (env : Env) (a b f : Str) :
    ∀ ex, get_commits_between_refs env a b f = .error ex → ExnShape env ex := by
  intro ex h
  unfold get_commits_between_refs at h
  exact shape_bind env _ _ (fun ex h => run_command_error_shape env _ ex h)
    (fun v ex h => shape_pure env _ ex h) ex h

theorem commits_details_error_shape (env : Env) (h0 : Str) :
    ∀ ex, get_commit_details env h0 = .error ex → ExnShape env ex := by
  intro ex h
  unfold get_commit_details at h
  refine shape_bind env _ _ (fun ex h => run_command_error_shape env _ ex h) ?_ ex h
  intro message ex h
  refine shape_bind env _ _ (fun ex h => run_command_error_shape env _ ex h) ?_ ex h
  intro files ex h
  refine shape_bind env _ _ (fun ex h => run_command_error_shape env _ ex h) ?_ ex h
  intro author ex h
  refine shape_bind env _ _ (fun ex h => run_command_error_shape env _ ex h) ?_ ex h
  intro date ex h
  exact shape_pure env _ ex h

theorem commits_loop_error_shape (env : Env) :
    ∀ hs ex, details_loop env hs = .error ex → ExnShape env ex := by
  intro hs
  induction hs with
  | nil =>
    intro ex h
    exact Except.noConfusion h
  | cons h0 rest ih =>
    intro ex h
    simp only [details_loop] at h
    by_cases hhe : h0 = []
    · rw [if_pos hhe] at h
      exact ih ex h
    · rw [if_neg hhe] at h
      refine shape_bind env _ _ (commits_details_error_shape env h0) ?_ ex h
      intro rec ex h
      refine shape_bind env _ _ (fun ex h => ih ex h) ?_ ex h
      intro rest' ex h
      exact shape_pure env _ ex h

end Commits

namespace Patchsets

theorem get_merge_commits_error_shape (env : Env) (a b : Str) :
    ∀ ex, get_merge_commits env a b = .error ex → ExnShape env ex := by
  intro ex h
  unfold get_merge_commits at h
  exact shape_bind env _ _ (fun ex h => run_command_error_shape env _ ex h)
    (fun v ex h => shape_pure env _ ex h) ex h

theorem get_merge_details_error_shape (env : Env) (h0 : Str) :
    ∀ ex, get_merge_details env h0 = .error ex → ExnShape env ex := by
  intro ex h
  unfold get_merge_details at h
  refine shape_bind env _ _ (fun ex h => run_command_error_shape env _ ex h) ?_ ex h
  intro subject ex h
  refine shape_bind env _ _ (fun ex h => run_command_error_shape env _ ex h) ?_ ex h
  intro body ex h
  refine shape_bind env _ _ (fun ex h => run_command_error_shape env _ ex h) ?_ ex h
  intro parent1 ex h
  refine shape_bind env _ _ (fun ex h => run_command_error_shape env _ ex h) ?_ ex h
  intro parent2 ex h
  refine shape_bind env _ _ (fun ex h => run_command_error_shape env _ ex h) ?_ ex h
  intro author ex h
  refine shape_bind env _ _ (fun ex h => run_command_error_shape env _ ex h) ?_ ex h
  intro date ex h
  exact shape_pure env _ ex h

theorem get_commits_in_merge_error_shape (env : Env) (a b : Str) :
    ∀ ex, get_commits_in_merge env a b = .error ex → ExnShape env ex := by
  intro ex h
  unfold get_commits_in_merge at h
  exact shape_bind env _ _ (fun ex h => run_command_error_shape env _ ex h)
    (fun v ex h => shape_pure env _ ex h) ex h

theorem patchsets_details_error_shape (env : Env) (h0 : Str) :
    ∀ ex, get_commit_details env h0 = .error ex → ExnShape env ex := by
  intro ex h
  unfold get_commit_details at h
  refine shape_bind env _ _ (fun ex h => run_command_error_shape env _ ex h) ?_ ex h
  intro subject ex h
  refine shape_bind env _ _ (fun ex h => run_command_error_shape env _ ex h) ?_ ex h
  intro message ex h
  refine shape_bind env _ _ (fun ex h => run_command_error_shape env _ ex h) ?_ ex h
  intro files ex h
  refine shape_bind env _ _ (fun ex h => run_command_error_shape env _ ex h) ?_ ex h
  intro author ex h
  refine shape_bind env _ _ (fun ex h => run_command_error_shape env _ ex h) ?_ ex h
  intro date ex h
  exact shape_pure env _ ex h

theorem check_merge_affects_verifier_error_shape (env : Env) (a b f : Str) :
    ∀ ex, check_merge_affects_verifier env a b f = .error ex → ExnShape env ex := by
  intro ex h
  unfold check_merge_affects_verifier at h
  exact shape_bind env _ _ (fun ex h => run_command_error_shape env _ ex h)
    (fun v ex h => shape_pure env _ ex h) ex h

theorem check_merge_contains_merges_error_shape (env : Env) (a b : Str) :
    ∀ ex, check_merge_contains_merges env a b = .error ex → ExnShape env ex := by
  intro ex h
  unfold check_merge_contains_merges at h
  exact shape_bind env _ _ (fun ex h => run_command_error_shape env _ ex h)
    (fun v ex h => shape_pure env _ ex h) ex h

theorem patchsets_loop_error_shape (env : Env) :
    ∀ hs ex, details_loop env hs = .error ex → ExnShape env ex := by
  intro hs
  induction hs with
  | nil =>
    intro ex h
    exact Except.noConfusion h
  | cons h0 rest ih =>
    intro ex h
    simp only [details_loop] at h
    by_cases hhe : h0 = []
    · rw [if_pos hhe] at h
      exact ih ex h
    · rw [if_neg hhe] at h
      refine shape_bind env _ _ (patchsets_details_error_shape env h0) ?_ ex h
      intro rec ex h
      refine shape_bind env _ _ (fun ex h => ih ex h) ?_ ex h
      intro rest' ex h
      exact shape_pure env _ ex h

theorem process_loop_error_shape (env : Env) (tf : Str) :
    ∀ hs ex, process_loop env tf hs = .error ex → ExnShape env ex := by
  intro hs
  induction hs with
  | nil =>
    intro ex h
    exact Except.noConfusion h
  | cons h0 rest ih =>
    intro ex h
    simp only [process_loop] at h
    by_cases hhe : h0 = []
    · rw [if_pos hhe] at h
      exact ih ex h
    · rw [if_neg hhe] at h
      refine shape_bind env _ _ (get_merge_details_error_shape env h0) ?_ ex h
      intro md ex h
      refine shape_bind env _ _
        (check_merge_contains_merges_error_shape env md.parent1 md.parent2) ?_ ex h
      intro nested ex h
      cases nested with
      | true =>
        rw [if_pos rfl] at h
        exact ih ex h
      | false =>
        rw [if_neg (by simp)] at h
        by_cases htag : containsSub (chars "Merge tag") md.subject = true
        · rw [if_pos htag] at h
          exact ih ex h
        · rw [if_neg htag] at h
          refine shape_bind env _ _
            (check_merge_affects_verifier_error_shape env md.parent1 md.parent2 tf)
            ?_ ex h
          intro affects ex h
          cases affects with
          | false =>
            rw [if_neg (by simp)] at h
            exact ih ex h
          | true =>
            rw [if_pos rfl] at h
            refine shape_bind env _ _
              (get_commits_in_merge_error_shape env md.parent1 md.parent2) ?_ ex h
            intro chs ex h
            refine shape_bind env _ _ (patchsets_loop_error_shape env chs) ?_ ex h
            intro cds ex h
            refine shape_bind env _ _ (fun ex h => ih ex h) ?_ ex h
            intro pr ex h
            rcases pr with ⟨restPs, restLines⟩
            exact shape_pure env _ ex h

end Patchsets

/-- The stderr line of the dead InvalidReference handler. -/
def invalid_refs_msg : Str := chars "Error: One or both git references do not exist"

theorem errLine1_ne_invalid (c : GitCmd) : errLine1 c ≠ invalid_refs_msg := by
  intro h
  have h6 := congrArg (List.take 6) h
  have e1 : (errLine1 c).take 6 = chars "Error " := rfl
  rw [e1] at h6
  exact absurd h6 (by decide)

theorem errLine2_ne_invalid (env : Env) (c : GitCmd) :
    errLine2 env c ≠ invalid_refs_msg := by
  intro h
  have h6 := congrArg (List.take 6) h
  have e1 : (errLine2 env c).take 6 = chars "Error " := rfl
  rw [e1] at h6
  exact absurd h6 (by decide)

theorem commits_progress_ne_invalid (s e : Str) :
    Commits.progress_line s e ≠ invalid_refs_msg := by
  intro h
  have h6 := congrArg (List.take 6) h
  have e1 : (Commits.progress_line s e).take 6 = chars "Analyz" := rfl
  rw [e1] at h6
  exact absurd h6 (by decide)

theorem patchsets_progress_ne_invalid (s e : Str) :
    Patchsets.progress_line s e ≠ invalid_refs_msg := by
  intro h
  have h6 := congrArg (List.take 6) h
  have e1 : (Patchsets.progress_line s e).take 6 = chars "Analyz" := rfl
  rw [e1] at h6
  exact absurd h6 (by decide)

theorem found_line_ne_invalid (a b : Str) :
    Patchsets.found_line a b ≠ invalid_refs_msg := by
  intro h
  have h6 := congrArg (List.take 6) h
  have e1 : (Patchsets.found_line a b).take 6 = chars "Found " := rfl
  rw [e1] at h6
  exact absurd h6 (by decide)

theorem exn_shape_lines_ne_invalid (env : Env) (ls : List Str)
    (hshape : ExnShape env (.systemExit ls)) : invalid_refs_msg ∉ ls := by
  obtain ⟨c, hc⟩ := hshape
  injection hc with hc
  subst hc
  intro hmem
  rcases List.mem_cons.mp hmem with h1 | hmem
  · exact errLine1_ne_invalid c h1.symm
  · rcases List.mem_cons.mp hmem with h2 | hmem
    · exact errLine2_ne_invalid env c h2.symm
    · cases hmem

theorem tryRefs_error_shape (env : Env) (s e : Str) :
    ∀ ex, (do
      let _ ← run_command env (.revParse s)
      let _ ← run_command env (.revParse e)
      pure () : Except Exn Unit) = .error ex → ExnShape env ex := by
  refine shape_bind env _ _ (fun ex h => run_command_error_shape env _ ex h) ?_
  intro a
  refine shape_bind env _ _ (fun ex h => run_command_error_shape env _ ex h) ?_
  intro b
  exact shape_pure env _

theorem run_command_fail_of_gitExec_none (env : Env) (cmd : GitCmd)
    (h : gitExec env cmd = none) :
    run_command env cmd = .error (.systemExit [errLine1 cmd, errLine2 env cmd]) := by
  unfold run_command
  split
  · rfl
  · rw [h]

/-- Claim C9: the CalledProcessError handler around the rev-parse
validation is dead code: run_command never lets that exception escape,
so the message it would print never appears on stderr of either tool,
and an unresolvable start reference terminates inside run_command with
the two generic command-failure lines and exit status 1. -/
theorem C9_dead_invalid_ref_handler (env : Env) (s e : Str) :
    invalid_refs_msg ∉ (Commits.main env s e).stderr ∧
    invalid_refs_msg ∉ (Patchsets.main env s e).stderr ∧
    (∀ cmd, run_command env cmd ≠ .error .calledProcessError) ∧
    (env.inRepo = true → resolve env s = none →
      Commits.main env s e =
        ⟨[], [errLine1 (.revParse s), errLine2 env (.revParse s)], 1⟩ ∧
      Patchsets.main env s e =
        ⟨[], [errLine1 (.revParse s), errLine2 env (.revParse s)], 1⟩) := by
  refine ⟨?_, ?_, run_command_never_cpe env, ?_⟩
  · unfold Commits.main
    split
    · intro hmem
      have := List.mem_singleton.mp hmem
      exact absurd this (by decide)
    · split
      · rename_i heq
        obtain ⟨c, hc⟩ := tryRefs_error_shape env s e _ heq
        exact Exn.noConfusion hc
      · rename_i ls heq
        exact exn_shape_lines_ne_invalid env ls (tryRefs_error_shape env s e _ heq)
      · split
        · rename_i ls heq
          have hshape : ExnShape env (.systemExit ls) := by
            refine shape_bind env _ _
              (Commits.get_commits_between_refs_error_shape env s e
                Commits.target_file) ?_ _ heq
            intro mc
            exact Commits.commits_loop_error_shape env mc
          intro hmem
          rcases List.mem_cons.mp hmem with h1 | hmem
          · exact commits_progress_ne_invalid s e h1.symm
          · exact exn_shape_lines_ne_invalid env ls hshape hmem
        · intro hmem
          rcases List.mem_cons.mp hmem with h1 | hmem
          · exact commits_progress_ne_invalid s e h1.symm
          · rcases List.mem_cons.mp hmem with h2 | hmem
            · exact absurd h2 (by decide)
            · cases hmem
        · intro hmem
          have := List.mem_singleton.mp hmem
          exact commits_progress_ne_invalid s e this.symm
  · unfold Patchsets.main
    split
    · intro hmem
      have := List.mem_singleton.mp hmem
      exact absurd this (by decide)
    · split
      · rename_i heq
        obtain ⟨c, hc⟩ := tryRefs_error_shape env s e _ heq
        exact Exn.noConfusion hc
      · rename_i ls heq
        exact exn_shape_lines_ne_invalid env ls (tryRefs_error_shape env s e _ heq)
      · split
        · rename_i ls heq
          have hshape : ExnShape env (.systemExit ls) := by
            refine shape_bind env _ _
              (Patchsets.get_merge_commits_error_shape env s e) ?_ _ heq
            intro mc
            exact Patchsets.process_loop_error_shape env Patchsets.target_file mc
          intro hmem
          rcases List.mem_cons.mp hmem with h1 | hmem
          · exact patchsets_progress_ne_invalid s e h1.symm
          · exact exn_shape_lines_ne_invalid env ls hshape hmem
        · intro hmem
          rcases List.mem_cons.mp hmem with h1 | hmem
          · exact patchsets_progress_ne_invalid s e h1.symm
          · rcases List.mem_cons.mp hmem with h2 | hmem
            · exact absurd h2 (by decide)
            · cases hmem
        · rename_i patchsets foundLines heq
          obtain ⟨mc, -, hproc⟩ := bind_ok_inv _ _ _ heq
          obtain ⟨-, hlines⟩ := Patchsets.process_loop_ok_spec env
            Patchsets.target_file mc patchsets foundLines hproc
          intro hmem
          rcases List.mem_cons.mp hmem with h1 | hmem
          · exact patchsets_progress_ne_invalid s e h1.symm
          · obtain ⟨a, b, hab⟩ := hlines _ hmem
            exact found_line_ne_invalid a b (hab.symm.trans rfl)
  · intro hrepo hres
    have hrc : run_command env (.revParse s) =
        .error (.systemExit [errLine1 (.revParse s), errLine2 env (.revParse s)]) :=
      run_command_fail_of_gitExec_none env _ (by simp [gitExec, hres])
    constructor
    · rw [Commits.main, if_neg (by simp [hrepo]), hrc, exceptBind_error]
    · rw [Patchsets.main, if_neg (by simp [hrepo]), hrc, exceptBind_error]

/-- Witness for C9: running either tool with the unresolvable reference
nope aborts with the generic command-failure diagnostics, exit 1. -/
theorem C9_witness :
    envC.inRepo = true ∧ resolve envC (chars "nope") = none ∧
    Commits.main envC (chars "nope") (chars "a1") =
      ⟨[], [errLine1 (.revParse (chars "nope")),
            errLine2 envC (.revParse (chars "nope"))], 1⟩ ∧
    Patchsets.main envC (chars "nope") (chars "a1") =
      ⟨[], [errLine1 (.revParse (chars "nope")),
            errLine2 envC (.revParse (chars "nope"))], 1⟩ :=
  ⟨by decide, by decide,
   (C9_dead_invalid_ref_handler envC (chars "nope") (chars "a1")).2.2.2
     (by decide) (by decide)⟩

/-- Concrete repository whose commit f1 touches a file whose name ends
in a space, an interior line of the name-only listing. -/
def envX : Env :=
  { commits :=
      [ { hash := chars "f0", parents := [], subject := chars "init",
          body := chars "", messageB := chars "init", author := chars "Ann <a@x>",
          date := chars "2024-01-01 00:00:00 +0000", files := [chars "README"] },
        { hash := chars "f1", parents := [0], subject := chars "bpf: odd file",
          body := chars "", messageB := chars "bpf: odd file",
          author := chars "Bob <b@x>", date := chars "2024-01-02 00:00:00 +0000",
          files := [chars "a.c ", chars "kernel/bpf/verifier.c"] } ],
    refs := [],
    inRepo := true,
    failCmd := fun _ => false,
    errDetails := fun _ => [],
    hwf := by decide }

/-- Counterexample to C10 as stated: in envX the reported modified-file
entry a.c with a trailing space is not stripped (only the listing as a
whole is stripped, which leaves interior lines untouched). -/
theorem C10_counterexample :
    ∃ r ∈ (Commits.main envX (chars "f1") (chars "f1")).stdout,
      ∃ rec ∈ r.commits, ∃ f ∈ rec.modified_files, f ≠ pyStrip f := by decide

/-- Claim C10 (amended): every scalar string field of every emitted
record (author, date, message, subject, body and the merge fields) is a
strip fixpoint, so in particular the %B message carries no trailing
newline and a whitespace-only body becomes empty; modified-file entries
are guaranteed nonempty, but an interior path is passed through verbatim
and may keep its own surrounding whitespace. -/
theorem C10_fields_stripped (env : Env) (s e : Str) :
    (∀ r ∈ (Commits.main env s e).stdout, ∀ rec ∈ r.commits,
      rec.author = pyStrip rec.author ∧
      rec.date = pyStrip rec.date ∧
      rec.message = pyStrip rec.message ∧
      rec.message.getLast? ≠ some '\n' ∧
      (∃ i, i < env.commits.length ∧
        rec.message = pyStrip (dataAt env.commits i).messageB) ∧
      ∀ f ∈ rec.modified_files, f ≠ []) ∧
    (∀ r ∈ (Patchsets.main env s e).stdout, ∀ p ∈ r.patchsets,
      p.merge_subject = pyStrip p.merge_subject ∧
      p.merge_body = pyStrip p.merge_body ∧
      p.merge_author = pyStrip p.merge_author ∧
      p.merge_date = pyStrip p.merge_date ∧
      ∀ rec ∈ p.commits,
        rec.subject = pyStrip rec.subject ∧
        rec.author = pyStrip rec.author ∧
        rec.date = pyStrip rec.date ∧
        rec.message = pyStrip rec.message ∧
        (∃ i, i < env.commits.length ∧
          rec.message = pyStrip (dataAt env.commits i).body ∧
          ((∀ c ∈ (dataAt env.commits i).body, c.isWhitespace = true) →
            rec.message = [])) ∧
        ∀ f ∈ rec.modified_files, f ≠ []) := by
  constructor
  · intro r hr rec hrec
    obtain ⟨hs, recs, hloop, hrep⟩ := Commits.commits_stdout_inv env s e r hr
    subst hrep
    obtain ⟨h0, hdet⟩ := Commits.details_loop_records env hs recs hloop rec hrec
    obtain ⟨i, hin, hres, hrceq⟩ := Commits.commits_details_inv env h0 rec hdet
    subst hrceq
    refine ⟨(pyStrip_idem _).symm, (pyStrip_idem _).symm, (pyStrip_idem _).symm,
      ?_, ⟨i, hin, rfl⟩, ?_⟩
    · intro hcontra
      have := getLast_pyStrip_false _ _ hcontra
      exact absurd this (by decide)
    · intro f hf
      have := List.mem_filter.mp hf
      simpa using this.2
  · intro r hr p hp
    obtain ⟨hs, ps, lines, hproc, hrep⟩ := Patchsets.patchsets_stdout_inv env s e r hr
    subst hrep
    obtain ⟨hall, -⟩ := Patchsets.process_loop_ok_spec env Patchsets.target_file
      hs ps lines hproc
    obtain ⟨m, q1, q2, hmn, hres, hq1, hq2, hsub, hbody, hauth, hdate, hmap, hrecs⟩ :=
      hall p hp
    refine ⟨by rw [hsub]; exact (pyStrip_idem _).symm,
      by rw [hbody]; exact (pyStrip_idem _).symm,
      by rw [hauth]; exact (pyStrip_idem _).symm,
      by rw [hdate]; exact (pyStrip_idem _).symm, ?_⟩
    intro rec hrec
    obtain ⟨i, hin, hres', hsubj, hmsg, hauth', hdate', hfiles⟩ := hrecs rec hrec
    refine ⟨by rw [hsubj]; exact (pyStrip_idem _).symm,
      by rw [hauth']; exact (pyStrip_idem _).symm,
      by rw [hdate']; exact (pyStrip_idem _).symm,
      by rw [hmsg]; exact (pyStrip_idem _).symm,
      ⟨i, hin, hmsg, ?_⟩, ?_⟩
    · intro hws
      rw [hmsg]
      exact (pyStrip_eq_nil_iff _).mpr hws
    · intro f hf
      rw [hfiles] at hf
      have := List.mem_filter.mp hf
      simpa using this.2

/-- First commit record of reportC and first inner record of patchP, for
the C10 witness. -/
def recC : Commits.CommitRecord := reportC.commits.headD default

/-- First inner commit record of the envP patchset, for the C10
witness. -/
def recP : Patchsets.CommitRecord := patchP.commits.headD default

/-- Witness for the amended C10 at the concrete runs over envC and
envP. -/
theorem C10_witness :
    (reportC ∈ (Commits.main envC (chars "a1") (chars "a1")).stdout ∧
      recC ∈ reportC.commits ∧
      (recC.author = pyStrip recC.author ∧
        recC.date = pyStrip recC.date ∧
        recC.message = pyStrip recC.message ∧
        recC.message.getLast? ≠ some '\n' ∧
        (∃ i, i < envC.commits.length ∧
          recC.message = pyStrip (dataAt envC.commits i).messageB) ∧
        ∀ f ∈ recC.modified_files, f ≠ [])) ∧
    (reportP ∈ (Patchsets.main envP (chars "b1") (chars "b2")).stdout ∧
      patchP ∈ reportP.patchsets ∧
      (patchP.merge_subject = pyStrip patchP.merge_subject ∧
        patchP.merge_body = pyStrip patchP.merge_body ∧
        patchP.merge_author = pyStrip patchP.merge_author ∧
        patchP.merge_date = pyStrip patchP.merge_date ∧
        ∀ rec ∈ patchP.commits,
          rec.subject = pyStrip rec.subject ∧
          rec.author = pyStrip rec.author ∧
          rec.date = pyStrip rec.date ∧
          rec.message = pyStrip rec.message ∧
          (∃ i, i < envP.commits.length ∧
            rec.message = pyStrip (dataAt envP.commits i).body ∧
            ((∀ c ∈ (dataAt envP.commits i).body, c.isWhitespace = true) →
              rec.message = [])) ∧
          ∀ f ∈ rec.modified_files, f ≠ [])) :=
  ⟨⟨by decide, by decide,
    (C10_fields_stripped envC (chars "a1") (chars "a1")).1 reportC (by decide)
      recC (by decide)⟩,
   ⟨by decide, by decide,
    (C10_fields_stripped envP (chars "b1") (chars "b2")).2 reportP (by decide)
      patchP (by decide)⟩⟩
